import Mathlib

/-!
Verification of the bus route simulator (`BUS_ROUTE_SIM.c`).

The program keeps a circular doubly-linked list of bus stops rooted at a
global `head` pointer, with a monotonically increasing id counter.  We model
the C heap as an association list from node addresses (`Nat`) to `Node`
records whose `prev`/`next` fields are `Option Nat` (`none` models a NULL
pointer).  Machine doubles are modelled as exact rationals, file contents as
lists of characters, and every operation that the C code performs through
pointer dereferences is written in the `Option` monad, `none` standing for a
dereference of an invalid pointer (which real C would crash on) or for a
non-terminating pointer chase.
-/

set_option maxHeartbeats 1000000

namespace BusRoute

/-- A `Stop` node of `BUS_ROUTE_SIM.c`: payload fields plus the two link
fields (`none` models a NULL pointer). -/
structure Node where
  id : Nat
  name : String
  passengers : Int
  dist_to_next : Rat
  time_to_next : Rat
  prev : Option Nat
  next : Option Nat
deriving DecidableEq

/-- The heap: an association list from addresses to nodes. -/
abbrev Heap := List (Nat × Node)

/-- The set of allocated addresses, in allocation order. -/
def keys (h : Heap) : List Nat := h.map Prod.fst

/-- Update the node stored at address `a` (no-op when `a` is unallocated). -/
def hupd (h : Heap) (a : Nat) (f : Node → Node) : Heap :=
  h.map fun q => if q.1 = a then (q.1, f q.2) else q

/-- Free the node at address `a`. -/
def eraseKey (h : Heap) (a : Nat) : Heap := h.filter fun q => decide (q.1 ≠ a)

/-- Dereference `a` and read its `next` field. -/
def optNext (h : Heap) (a : Nat) : Option Nat := (List.lookup a h).bind Node.next

/-- Dereference `a` and read its `prev` field. -/
def optPrev (h : Heap) (a : Nat) : Option Nat := (List.lookup a h).bind Node.prev

theorem lookup_cons' (k b : Nat) (v : Node) (t : Heap) :
    List.lookup b ((k, v) :: t) = if b = k then some v else List.lookup b t := by
  by_cases hb : b = k
  · subst hb; simp [List.lookup]
  · have hf : (b == k) = false := beq_eq_false_iff_ne.mpr hb
    simp [List.lookup, hf, hb]

theorem lookup_hupd (h : Heap) (a b : Nat) (f : Node → Node) :
    List.lookup b (hupd h a f) =
      if b = a then (List.lookup a h).map f else List.lookup b h := by
  induction h with
  | nil => simp [hupd]
  | cons q t ih =>
    obtain ⟨k, v⟩ := q
    simp only [hupd, List.map_cons] at ih ⊢
    by_cases hk : k = a
    · subst hk
      simp only [if_pos rfl, lookup_cons']
      by_cases hb : b = k <;> simp [lookup_cons', hb, ih]
    · simp only [if_neg hk, lookup_cons']
      by_cases hb : b = k
      · subst hb
        simp [lookup_cons', hk, ih]
      · by_cases hba : b = a
        · subst hba
          have hak : ¬b = k := hb
          simp [lookup_cons', hak, ih]
        · simp [lookup_cons', hb, hba, ih]

theorem keys_hupd (h : Heap) (a : Nat) (f : Node → Node) :
    keys (hupd h a f) = keys h := by
  induction h with
  | nil => rfl
  | cons q t ih =>
    simp only [hupd, keys, List.map_cons] at ih ⊢
    by_cases hk : q.1 = a <;> simp [hk, ih]

theorem lookup_eraseKey (h : Heap) (a b : Nat) :
    List.lookup b (eraseKey h a) = if b = a then none else List.lookup b h := by
  induction h with
  | nil => simp [eraseKey]
  | cons q t ih =>
    obtain ⟨k, v⟩ := q
    by_cases hk : k = a
    · subst hk
      have h1 : eraseKey ((k, v) :: t) k = eraseKey t k := by
        simp [eraseKey, List.filter_cons]
      rw [h1, ih, lookup_cons']
      by_cases hb : b = k <;> simp [hb]
    · have h1 : eraseKey ((k, v) :: t) a = (k, v) :: eraseKey t a := by
        simp [eraseKey, List.filter_cons, hk]
      rw [h1, lookup_cons', lookup_cons', ih]
      by_cases hb : b = k
      · subst hb
        simp [hk]
      · by_cases hba : b = a <;> simp [hb, hba] <;> omega

theorem keys_eraseKey (h : Heap) (a : Nat) :
    keys (eraseKey h a) = (keys h).filter fun k => decide (k ≠ a) := by
  induction h with
  | nil => rfl
  | cons q t ih =>
    obtain ⟨k, v⟩ := q
    by_cases hk : k = a
    · have h1 : eraseKey ((k, v) :: t) a = eraseKey t a := by
        simp [eraseKey, List.filter_cons, hk]
      rw [h1, ih]
      simp [keys, List.filter_cons, hk]
    · have h1 : eraseKey ((k, v) :: t) a = (k, v) :: eraseKey t a := by
        simp [eraseKey, List.filter_cons, hk]
      rw [h1]
      simp only [keys, List.map_cons, List.filter_cons]
      simp only [decide_not]
      have hkt : (decide (k = a)) = false := by simp [hk]
      rw [hkt]
      simpa [keys, decide_not] using ih

theorem lookup_eq_none_iff (h : Heap) (a : Nat) :
    List.lookup a h = none ↔ a ∉ keys h := by
  induction h with
  | nil => simp [keys]
  | cons q t ih =>
    obtain ⟨k, v⟩ := q
    rw [lookup_cons']
    by_cases hb : a = k <;> simp [keys, hb, ih]

theorem lookup_isSome_of_mem {h : Heap} {a : Nat} (ha : a ∈ keys h) :
    ∃ nd, List.lookup a h = some nd := by
  rcases hx : List.lookup a h with _ | nd
  · exact absurd ((lookup_eq_none_iff h a).1 hx) (not_not_intro ha)
  · exact ⟨nd, rfl⟩

theorem mem_keys_of_lookup {h : Heap} {a : Nat} {nd : Node}
    (ha : List.lookup a h = some nd) : a ∈ keys h := by
  by_contra hmem
  rw [← lookup_eq_none_iff] at hmem
  simp [hmem] at ha

/-! ### Doubly-linked segments

`seg h p xs n` says that the nodes listed in `xs` are linked consecutively
by their `next` fields, that the first one's `prev` field points to `p`, and
that the last one's `next` field points to `n`.  A non-empty route
`as = hd :: _` of the C program is a cycle, i.e.
`seg h (last of as) as hd`. -/

def seg (h : Heap) : Nat → List Nat → Nat → Prop
  | _, [], _ => True
  | p, x :: xs, n =>
      optPrev h x = some p ∧ optNext h x = some (xs.headD n) ∧ seg h x xs n

theorem seg_nil (h : Heap) (p n : Nat) : seg h p [] n := trivial

theorem seg_cons_iff (h : Heap) (p x n : Nat) (xs : List Nat) :
    seg h p (x :: xs) n ↔
      optPrev h x = some p ∧ optNext h x = some (xs.headD n) ∧ seg h x xs n :=
  Iff.rfl

def segDec (h : Heap) : (p : Nat) → (xs : List Nat) → (n : Nat) → Decidable (seg h p xs n)
  | _, [], _ => isTrue trivial
  | p, x :: xs, n =>
      have : Decidable (seg h x xs n) := segDec h x xs n
      decidable_of_iff
        (optPrev h x = some p ∧ optNext h x = some (xs.headD n) ∧ seg h x xs n)
        (seg_cons_iff h p x n xs).symm

attribute [instance] segDec

theorem headD_append (xs ys : List Nat) (d : Nat) :
    (xs ++ ys).headD d = xs.headD (ys.headD d) := by
  cases xs <;> simp

theorem getLastD_cons' (x p : Nat) (xs : List Nat) :
    (x :: xs).getLastD p = xs.getLastD x := by
  cases xs <;> simp [List.getLastD]

theorem seg_append (h : Heap) (xs ys : List Nat) (p n : Nat) :
    seg h p (xs ++ ys) n ↔
      seg h p xs (ys.headD n) ∧ seg h (xs.getLastD p) ys n := by
  induction xs generalizing p with
  | nil => simp [seg]
  | cons x xs ih =>
    simp only [List.cons_append, seg_cons_iff, headD_append, getLastD_cons', ih x]
    tauto

theorem seg_frame {h h' : Heap} {xs : List Nat} {p n : Nat}
    (hagree : ∀ x ∈ xs, List.lookup x h' = List.lookup x h) (hs : seg h p xs n) :
    seg h' p xs n := by
  induction xs generalizing p with
  | nil => exact trivial
  | cons x xs ih =>
    obtain ⟨h1, h2, h3⟩ := (seg_cons_iff h p x n xs).1 hs
    refine (seg_cons_iff h' p x n xs).2 ⟨?_, ?_, ih (fun y hy => hagree y (by simp [hy])) h3⟩
    · rw [optPrev, hagree x (by simp)]
      exact h1
    · rw [optNext, hagree x (by simp)]
      exact h2

theorem seg_next_of_split {h : Heap} {p n x : Nat} {pre suf : List Nat}
    (hs : seg h p (pre ++ x :: suf) n) : optNext h x = some (suf.headD n) := by
  obtain ⟨-, h2⟩ := (seg_append h pre (x :: suf) p n).1 hs
  exact ((seg_cons_iff h _ x n suf).1 h2).2.1

theorem seg_prev_of_split {h : Heap} {p n x : Nat} {pre suf : List Nat}
    (hs : seg h p (pre ++ x :: suf) n) : optPrev h x = some (pre.getLastD p) := by
  obtain ⟨-, h2⟩ := (seg_append h pre (x :: suf) p n).1 hs
  exact ((seg_cons_iff h _ x n suf).1 h2).1

theorem lookup_of_optNext {h : Heap} {a b : Nat} (hx : optNext h a = some b) :
    ∃ nd, List.lookup a h = some nd ∧ nd.next = some b := by
  rcases hl : List.lookup a h with _ | nd
  · rw [optNext, hl] at hx
    exact absurd hx (by simp)
  · rw [optNext, hl] at hx
    exact ⟨nd, rfl, hx⟩

theorem lookup_of_optPrev {h : Heap} {a b : Nat} (hx : optPrev h a = some b) :
    ∃ nd, List.lookup a h = some nd ∧ nd.prev = some b := by
  rcases hl : List.lookup a h with _ | nd
  · rw [optPrev, hl] at hx
    exact absurd hx (by simp)
  · rw [optPrev, hl] at hx
    exact ⟨nd, rfl, hx⟩

/-! ### Program state and the operations of `BUS_ROUTE_SIM.c` -/

/-- The global program state: the heap of allocated `Stop` nodes, the global
`head` pointer, the global id counter `next_id`, and a fresh-address counter
standing for `malloc`. -/
structure RState where
  heap : Heap
  head : Option Nat
  next_id : Nat
  next_addr : Nat
deriving DecidableEq

/-- The state at program start: `head = NULL`, `next_id = 1`. -/
def initState : RState := ⟨[], none, 1, 0⟩

/-- `create_stop`: allocate a fresh node with the next id, copying at most
`NAME_LEN - 1 = 63` characters of the name (`strncpy` truncation), with NULL
`prev`/`next` links; returns the fresh address. -/
def create_stop (s : RState) (nm : String) (p : Int) (d t : Rat) : Nat × RState :=
  (s.next_addr,
    { heap := (s.next_addr,
        { id := s.next_id, name := String.mk (nm.data.take 63), passengers := p,
          dist_to_next := d, time_to_next := t, prev := none, next := none }) :: s.heap,
      head := s.head, next_id := s.next_id + 1, next_addr := s.next_addr + 1 })

/-- `insert_end`: append `node` after the tail (`head->prev`); on an empty
route the node becomes `head` and links to itself. -/
def insert_end (s : RState) (node : Nat) : Option RState :=
  match s.head with
  | none =>
      some { s with head := some node,
                    heap := hupd s.heap node
                      fun nd => { nd with next := some node, prev := some node } }
  | some hd => do
      let hdN ← List.lookup hd s.heap
      let tl ← hdN.prev
      let h1 := hupd s.heap tl fun nd => { nd with next := some node }
      let h2 := hupd h1 node fun nd => { nd with prev := some tl }
      let h3 := hupd h2 node fun nd => { nd with next := some hd }
      let h4 := hupd h3 hd fun nd => { nd with prev := some node }
      some { s with heap := h4 }

/-- `insert_after`: splice `node` right after `existing`; a NULL `existing`
falls back to `insert_end`. -/
def insert_after (s : RState) (existing : Option Nat) (node : Nat) : Option RState :=
  match existing with
  | none => insert_end s node
  | some ex => do
      let exN ← List.lookup ex s.heap
      let nxt ← exN.next
      let h1 := hupd s.heap ex fun nd => { nd with next := some node }
      let h2 := hupd h1 node fun nd => { nd with prev := some ex }
      let h3 := hupd h2 node fun nd => { nd with next := some nxt }
      let h4 := hupd h3 nxt fun nd => { nd with prev := some node }
      some { s with heap := h4 }

/-- The walk of `insert_at_position`:
`while (cur->next != head && idx < pos-1) { cur = cur->next; idx++; }`. -/
def walkPos (h : Heap) (hd : Nat) : Nat → Nat → Nat → Nat → Option Nat
  | 0, _, _, _ => none
  | fuel + 1, cur, idx, pos1 => do
      let nd ← List.lookup cur h
      let nx ← nd.next
      if nx ≠ hd ∧ idx < pos1 then walkPos h hd fuel nx (idx + 1) pos1 else some cur

/-- `insert_at_position` (1-based `pos`): `pos <= 1` or an empty route makes
the node the new head; otherwise walk from head and splice after the stop
reached. -/
def insert_at_position (s : RState) (node : Nat) (pos : Int) : Option RState :=
  match s.head with
  | none =>
      some { s with head := some node,
                    heap := hupd s.heap node
                      fun nd => { nd with next := some node, prev := some node } }
  | some hd =>
      if pos ≤ 1 then do
        let hdN ← List.lookup hd s.heap
        let tl ← hdN.prev
        let h1 := hupd s.heap node fun nd => { nd with next := some hd }
        let h2 := hupd h1 node fun nd => { nd with prev := some tl }
        let h3 := hupd h2 tl fun nd => { nd with next := some node }
        let h4 := hupd h3 hd fun nd => { nd with prev := some node }
        some { s with heap := h4, head := some node }
      else do
        let cur ← walkPos s.heap hd (s.heap.length + (pos - 1).toNat) hd 1 (pos - 1).toNat
        insert_after s (some cur) node

/-- ASCII lower-casing of one character, modelling the locale-independent
case folding of `strcasecmp`. -/
def lowerChar (c : Char) : Char :=
  if 'A' ≤ c ∧ c ≤ 'Z' then Char.ofNat (c.toNat + 32) else c

/-- `strcasecmp(a, b) == 0`. -/
def eqNoCase (a b : String) : Prop := a.data.map lowerChar = b.data.map lowerChar

instance (a b : String) : Decidable (eqNoCase a b) := by
  unfold eqNoCase
  infer_instance

/-- The `do { ... } while (cur != head)` search loop of `find_by_name`. -/
def find_loop (h : Heap) (hd : Nat) (nm : String) : Nat → Nat → Option (Option Nat)
  | 0, _ => none
  | fuel + 1, cur => do
      let nd ← List.lookup cur h
      if eqNoCase nd.name nm then some (some cur)
      else do
        let nx ← nd.next
        if nx = hd then some none else find_loop h hd nm fuel nx

/-- `find_by_name`: first case-insensitive match in traversal order from
`head`; `none` (inner) when absent or the route is empty. -/
def find_by_name (s : RState) (nm : String) : Option (Option Nat) :=
  match s.head with
  | none => some none
  | some hd => find_loop s.heap hd nm s.heap.length hd

/-- `delete_by_name`: unlink and free the first case-insensitive match.
Returns 1 (`true`) when a deletion happened, 0 (`false`) otherwise. -/
def delete_by_name (s : RState) (nm : String) : Option (Bool × RState) := do
  let tgtO ← find_by_name s nm
  match tgtO with
  | none => some (false, s)
  | some t => do
      let nd ← List.lookup t s.heap
      let nx ← nd.next
      if nx = t then
        some (true, { s with heap := eraseKey s.heap t, head := none })
      else do
        let p ← nd.prev
        let h1 := hupd s.heap p fun q => { q with next := some nx }
        let h2 := hupd h1 nx fun q => { q with prev := some p }
        some (true, { s with heap := eraseKey h2 t,
                             head := if s.head = some t then some nx else s.head })

/-- The accumulation loop of `total_distance_time`. -/
def ttLoop (h : Heap) (hd : Nat) : Nat → Nat → Rat × Rat → Option (Rat × Rat)
  | 0, _, _ => none
  | fuel + 1, cur, acc => do
      let nd ← List.lookup cur h
      let acc' := (acc.1 + nd.dist_to_next, acc.2 + nd.time_to_next)
      let nx ← nd.next
      if nx = hd then some acc' else ttLoop h hd fuel nx acc'

/-- `total_distance_time`: sum all edge weights over one full traversal;
`(0, 0)` on an empty route. -/
def total_distance_time (s : RState) : Option (Rat × Rat) :=
  match s.head with
  | none => some (0, 0)
  | some hd => ttLoop s.heap hd s.heap.length hd (0, 0)

/-- The forward-walk loop of `distance_between`. -/
def dbLoop (h : Heap) (start target : Nat) :
    Nat → Nat → Rat × Rat → Option (Bool × Rat × Rat)
  | 0, _, _ => none
  | fuel + 1, cur, acc => do
      let nd ← List.lookup cur h
      let acc' := (acc.1 + nd.dist_to_next, acc.2 + nd.time_to_next)
      let nx ← nd.next
      if nx = target then some (true, acc')
      else if nx = start then some (false, acc')
      else dbLoop h start target fuel nx acc'

/-- `distance_between`: resolve both names, then walk forward from the first
stop accumulating edge weights until the second is reached. -/
def distance_between (s : RState) (aName bName : String) :
    Option (Bool × Rat × Rat) :=
  match s.head with
  | none => some (false, 0, 0)
  | some _ => do
      let stO ← find_by_name s aName
      let tgO ← find_by_name s bName
      match stO, tgO with
      | some st, some tg =>
          if st = tg then some (true, 0, 0)
          else dbLoop s.heap st tg s.heap.length st (0, 0)
      | _, _ => some (false, 0, 0)

/-- Collect the addresses reached by following `next` pointers from `cur`
until the node whose `next` is `stopAt` (inclusive). -/
def travFrom (h : Heap) (stopAt : Nat) : Nat → Nat → Option (List Nat)
  | 0, _ => none
  | fuel + 1, cur => do
      let nd ← List.lookup cur h
      let nx ← nd.next
      if nx = stopAt then some [cur]
      else do
        let rest ← travFrom h stopAt fuel nx
        some (cur :: rest)

/-- The route in traversal order from `head` (addresses). -/
def travList (s : RState) : Option (List Nat) :=
  match s.head with
  | none => some []
  | some hd => travFrom s.heap hd s.heap.length hd

/-- `clear_route`: walk the cycle from `head` freeing every node, then clear
`head`. -/
def clear_route (s : RState) : Option RState :=
  match s.head with
  | none => some s
  | some hd => do
      let as ← travFrom s.heap hd s.heap.length hd
      some { s with heap := s.heap.filter (fun q => decide (q.1 ∉ as)), head := none }

/-- Menu action 3: `insert_end(create_stop(...))`. -/
def insertEndNew (s : RState) (nm : String) (p : Int) (d t : Rat) : Option RState :=
  let c := create_stop s nm p d t
  insert_end c.2 c.1

/-- Menu action 4 core: `insert_after(existing, create_stop(...))`. -/
def insertAfterNew (s : RState) (existing : Option Nat) (nm : String) (p : Int)
    (d t : Rat) : Option RState :=
  let c := create_stop s nm p d t
  insert_after c.2 existing c.1

/-- Menu action 5: `insert_at_position(create_stop(...), pos)`. -/
def insertAtPositionNew (s : RState) (nm : String) (p : Int) (d t : Rat)
    (pos : Int) : Option RState :=
  let c := create_stop s nm p d t
  insert_at_position c.2 c.1 pos

/-! ### The route invariant -/

/-- `as` is one full doubly-linked cycle: the first node's `prev` is the
last node, consecutive nodes are linked, and the last node's `next` is the
first node. -/
def cyc (h : Heap) (as : List Nat) : Prop :=
  seg h (as.getLastD 0) as (as.headD 0)

/-- `InvWith s as`: `as` lists the allocated addresses in traversal order
from `head` (empty iff `head` is NULL), without duplicates and covering the
whole heap, and the heap links them into one doubly-linked cycle; addresses
are below the allocation counter and ids below the id counter. -/
def InvWith (s : RState) (as : List Nat) : Prop :=
  (keys s.heap).Nodup ∧ as.Nodup ∧ (keys s.heap).Perm as ∧
  s.head = as.head? ∧
  cyc s.heap as ∧
  (∀ a ∈ keys s.heap, a < s.next_addr) ∧
  (∀ q ∈ s.heap, (q : Nat × Node).2.id < s.next_id)

/-- The cyclic-route invariant of the data model. -/
def Inv (s : RState) : Prop := ∃ as, InvWith s as

/-! ### Heap-update algebra and frame lemmas -/

/-- The payload of a node: everything except the two link fields. -/
def Node.data (nd : Node) : Nat × String × Int × Rat × Rat :=
  (nd.id, nd.name, nd.passengers, nd.dist_to_next, nd.time_to_next)

theorem hupd_hupd_same (h : Heap) (a : Nat) (f g : Node → Node) :
    hupd (hupd h a f) a g = hupd h a fun nd => g (f nd) := by
  induction h with
  | nil => rfl
  | cons q t ih =>
    obtain ⟨k, v⟩ := q
    by_cases hk : k = a <;> simp [hupd, hk] at ih ⊢ <;> exact ih

theorem hupd_cons (k : Nat) (v : Node) (t : Heap) (a : Nat) (f : Node → Node) :
    hupd ((k, v) :: t) a f = (if k = a then (k, f v) else (k, v)) :: hupd t a f := by
  simp [hupd]

theorem hupd_comm (h : Heap) (a a' : Nat) (f g : Node → Node) (hne : a ≠ a') :
    hupd (hupd h a f) a' g = hupd (hupd h a' g) a f := by
  induction h with
  | nil => rfl
  | cons q t ih =>
    obtain ⟨k, v⟩ := q
    by_cases hk : k = a
    · have hk' : ¬k = a' := by omega
      rw [hupd_cons, if_pos hk, hupd_cons, if_neg hk', hupd_cons, if_neg hk',
        hupd_cons, if_pos hk, ih]
    · by_cases hk' : k = a'
      · rw [hupd_cons, if_neg hk, hupd_cons, if_pos hk', hupd_cons, if_pos hk',
          hupd_cons, if_neg hk, ih]
      · rw [hupd_cons, if_neg hk, hupd_cons, if_neg hk', hupd_cons, if_neg hk',
          hupd_cons, if_neg hk, ih]

theorem mem_hupd {h : Heap} {a : Nat} {f : Node → Node} {k : Nat} {w : Node}
    (hq : (k, w) ∈ hupd h a f) : ∃ v, (k, v) ∈ h ∧ (w = f v ∨ w = v) := by
  simp only [hupd, List.mem_map] at hq
  obtain ⟨⟨k0, v⟩, hv, hq⟩ := hq
  by_cases hk : k0 = a
  · rw [if_pos hk, Prod.mk.injEq] at hq
    obtain ⟨rfl, rfl⟩ := hq
    exact ⟨v, hv, Or.inl rfl⟩
  · rw [if_neg hk, Prod.mk.injEq] at hq
    obtain ⟨rfl, rfl⟩ := hq
    exact ⟨v, hv, Or.inr rfl⟩

theorem lookup_map_data_hupd (h : Heap) (a x : Nat) (f : Node → Node)
    (hf : ∀ nd, (f nd).data = nd.data) :
    (List.lookup x (hupd h a f)).map Node.data = (List.lookup x h).map Node.data := by
  rw [lookup_hupd]
  by_cases hx : x = a <;> simp [hx, Option.map_map, Function.comp_def, hf]

/-- The heap after the four pointer assignments of `insert_after`:
`ex->next = b; b->prev = ex; b->next = nxt; nxt->prev = b`. -/
def spliceHeap (g : Heap) (ex b nxt : Nat) : Heap :=
  hupd (hupd (hupd (hupd g ex fun nd => { nd with next := some b })
      b fun nd => { nd with prev := some ex })
      b fun nd => { nd with next := some nxt })
      nxt fun nd => { nd with prev := some b }

/-- The heap after the two pointer assignments of `delete_by_name`:
`p->next = n; n->prev = p`. -/
def unlinkHeap (g : Heap) (p nx : Nat) : Heap :=
  hupd (hupd g p fun q => { q with next := some nx }) nx fun q => { q with prev := some p }

theorem bind_next_map_setPrev (o : Option Node) (b : Option Nat) :
    ((o.map fun nd => { nd with prev := b }).bind fun a => a.next) =
      o.bind fun a => a.next := by
  cases o <;> rfl

theorem bind_prev_map_setNext (o : Option Node) (b : Option Nat) :
    ((o.map fun nd => { nd with next := b }).bind fun a => a.prev) =
      o.bind fun a => a.prev := by
  cases o <;> rfl

theorem lookup_spliceHeap_untouched (g : Heap) (ex b nxt x : Nat)
    (hx1 : x ≠ ex) (hx2 : x ≠ b) (hx3 : x ≠ nxt) :
    List.lookup x (spliceHeap g ex b nxt) = List.lookup x g := by
  simp [spliceHeap, lookup_hupd, hx1, hx2, hx3]

theorem optNext_spliceHeap (g : Heap) (ex b nxt x : Nat)
    (hbe : b ≠ ex) (hbn : b ≠ nxt)
    (hex : ∃ nd, List.lookup ex g = some nd)
    (hb : ∃ nd, List.lookup b g = some nd) :
    optNext (spliceHeap g ex b nxt) x =
      if x = ex then some b else if x = b then some nxt else optNext g x := by
  obtain ⟨eN, heN⟩ := hex
  obtain ⟨bN, hbN⟩ := hb
  simp only [spliceHeap, optNext, lookup_hupd]
  split_ifs <;> simp_all [bind_next_map_setPrev]

theorem optPrev_spliceHeap (g : Heap) (ex b nxt x : Nat)
    (hbe : b ≠ ex) (hbn : b ≠ nxt)
    (hnxt : ∃ nd, List.lookup nxt g = some nd)
    (hb : ∃ nd, List.lookup b g = some nd) :
    optPrev (spliceHeap g ex b nxt) x =
      if x = nxt then some b else if x = b then some ex else optPrev g x := by
  obtain ⟨nN, hnN⟩ := hnxt
  obtain ⟨bN, hbN⟩ := hb
  simp only [spliceHeap, optPrev, lookup_hupd]
  split_ifs <;> simp_all [bind_prev_map_setNext]

theorem lookup_unlinkHeap_untouched (g : Heap) (p nx x : Nat)
    (hx1 : x ≠ p) (hx2 : x ≠ nx) :
    List.lookup x (unlinkHeap g p nx) = List.lookup x g := by
  simp [unlinkHeap, lookup_hupd, hx1, hx2]

theorem optNext_unlinkHeap (g : Heap) (p nx x : Nat)
    (hp : ∃ nd, List.lookup p g = some nd) :
    optNext (unlinkHeap g p nx) x = if x = p then some nx else optNext g x := by
  obtain ⟨pN, hpN⟩ := hp
  simp only [unlinkHeap, optNext, lookup_hupd]
  split_ifs <;> simp_all [bind_next_map_setPrev]

theorem optPrev_unlinkHeap (g : Heap) (p nx x : Nat)
    (hnx : ∃ nd, List.lookup nx g = some nd) :
    optPrev (unlinkHeap g p nx) x = if x = nx then some p else optPrev g x := by
  obtain ⟨nN, hnN⟩ := hnx
  simp only [unlinkHeap, optPrev, lookup_hupd]
  split_ifs <;> simp_all [bind_prev_map_setNext]

theorem insert_pos1_heap_eq (g : Heap) (node tl hd : Nat) (hnt : node ≠ tl) :
    hupd (hupd (hupd (hupd g node fun nd => { nd with next := some hd })
        node fun nd => { nd with prev := some tl })
        tl fun nd => { nd with next := some node })
        hd (fun nd => { nd with prev := some node }) =
      spliceHeap g tl node hd := by
  rw [hupd_hupd_same, hupd_comm _ node tl _ _ hnt]
  unfold spliceHeap
  rw [hupd_hupd_same]

theorem insert_after_eq_splice (s : RState) (ex node nxt : Nat) (eN : Node)
    (h1 : List.lookup ex s.heap = some eN) (h2 : eN.next = some nxt) :
    insert_after s (some ex) node =
      some { s with heap := spliceHeap s.heap ex node nxt } := by
  simp [insert_after, h1, h2, spliceHeap]

theorem insert_end_eq_splice (s : RState) (node hd tl : Nat) (hdN : Node)
    (hhead : s.head = some hd)
    (h1 : List.lookup hd s.heap = some hdN) (h2 : hdN.prev = some tl) :
    insert_end s node =
      some { s with heap := spliceHeap s.heap tl node hd } := by
  simp [insert_end, hhead, h1, h2, spliceHeap]

theorem keys_spliceHeap (g : Heap) (ex b nxt : Nat) :
    keys (spliceHeap g ex b nxt) = keys g := by
  simp [spliceHeap, keys_hupd]

theorem keys_unlinkHeap (g : Heap) (p nx : Nat) :
    keys (unlinkHeap g p nx) = keys g := by
  simp [unlinkHeap, keys_hupd]

theorem id_of_mem_spliceHeap {g : Heap} {ex b nxt : Nat} {k : Nat} {w : Node}
    (hq : (k, w) ∈ spliceHeap g ex b nxt) : ∃ v, (k, v) ∈ g ∧ w.id = v.id := by
  obtain ⟨w1, hw1, hq1⟩ := mem_hupd hq
  obtain ⟨w2, hw2, hq2⟩ := mem_hupd hw1
  obtain ⟨w3, hw3, hq3⟩ := mem_hupd hw2
  obtain ⟨w4, hw4, hq4⟩ := mem_hupd hw3
  refine ⟨w4, hw4, ?_⟩
  have e1 : w.id = w1.id := by rcases hq1 with h | h <;> simp [h]
  have e2 : w1.id = w2.id := by rcases hq2 with h | h <;> simp [h]
  have e3 : w2.id = w3.id := by rcases hq3 with h | h <;> simp [h]
  have e4 : w3.id = w4.id := by rcases hq4 with h | h <;> simp [h]
  omega

theorem lookup_map_data_spliceHeap (g : Heap) (ex b nxt x : Nat) :
    (List.lookup x (spliceHeap g ex b nxt)).map Node.data =
      (List.lookup x g).map Node.data := by
  unfold spliceHeap
  rw [lookup_map_data_hupd, lookup_map_data_hupd, lookup_map_data_hupd,
    lookup_map_data_hupd]
  all_goals intro nd
  all_goals rfl

theorem lookup_map_data_unlinkHeap (g : Heap) (p nx x : Nat) :
    (List.lookup x (unlinkHeap g p nx)).map Node.data =
      (List.lookup x g).map Node.data := by
  unfold unlinkHeap
  rw [lookup_map_data_hupd, lookup_map_data_hupd]
  all_goals intro nd
  all_goals rfl

theorem getLastD_append (xs ys : List Nat) (d : Nat) :
    (xs ++ ys).getLastD d = ys.getLastD (xs.getLastD d) := by
  induction xs generalizing d with
  | nil => simp
  | cons x xs ih =>
    rw [List.cons_append, getLastD_cons', getLastD_cons', ih]

theorem getLastD_ne_nil {xs : List Nat} (hx : xs ≠ []) (d d' : Nat) :
    xs.getLastD d = xs.getLastD d' := by
  cases xs with
  | nil => exact absurd rfl hx
  | cons x xs => rw [getLastD_cons', getLastD_cons']

theorem headD_mem {xs : List Nat} (hx : xs ≠ []) (d : Nat) : xs.headD d ∈ xs := by
  cases xs with
  | nil => exact absurd rfl hx
  | cons x xs => simp

theorem seg_lookup_mem {h : Heap} {p n : Nat} {xs : List Nat} (hs : seg h p xs n) :
    ∀ x ∈ xs, ∃ nd, List.lookup x h = some nd := by
  induction xs generalizing p with
  | nil => intro x hx; simp at hx
  | cons y ys ih =>
    obtain ⟨h1, -, h3⟩ := (seg_cons_iff h p y n ys).1 hs
    intro x hx
    rcases List.mem_cons.1 hx with rfl | hx
    · obtain ⟨nd, hnd, -⟩ := lookup_of_optPrev h1
      exact ⟨nd, hnd⟩
    · exact ih h3 x hx

end BusRoute

namespace BusRoute

/-- Splicing a fresh node `b` right after `ex` turns the cycle
`u ++ ex :: v` into the cycle `u ++ ex :: b :: v`. -/
theorem seg_splice {g : Heap} {u v : List Nat} {ex b : Nat}
    (hN : (u ++ ex :: v).Nodup) (hbm : b ∉ u ++ ex :: v)
    (hb : ∃ nd, List.lookup b g = some nd)
    (hseg : seg g ((u ++ ex :: v).getLastD 0) (u ++ ex :: v) ((u ++ ex :: v).headD 0)) :
    seg (spliceHeap g ex b (v.headD ((u ++ ex :: v).headD 0)))
      ((u ++ ex :: b :: v).getLastD 0) (u ++ ex :: b :: v)
      ((u ++ ex :: b :: v).headD 0) := by
  rw [List.nodup_append] at hN
  obtain ⟨hNu, hNev, hdisj⟩ := hN
  rw [List.nodup_cons] at hNev
  obtain ⟨hexv, hNv⟩ := hNev
  have hexu : ex ∉ u := fun hx => hdisj hx (List.mem_cons_self ex v)
  have hbu : b ∉ u := fun hx => hbm (List.mem_append_left _ hx)
  have hbex : b ≠ ex := fun hx => hbm (List.mem_append_right _ (hx ▸ List.mem_cons_self ex v))
  have hbv : b ∉ v := fun hx => hbm (List.mem_append_right _ (List.mem_cons_of_mem ex hx))
  set hd0 := (u ++ ex :: v).headD 0 with hhd0
  set L0 := (u ++ ex :: v).getLastD 0 with hL0def
  set nxt := v.headD hd0 with hnxtdef
  set h' := spliceHeap g ex b nxt with hh'
  have hL0 : L0 = v.getLastD ex := by
    rw [hL0def, getLastD_append, getLastD_cons']
  rw [seg_append] at hseg
  obtain ⟨hsegu, hsegev⟩ := hseg
  simp only [List.headD_cons] at hsegu
  obtain ⟨hprev_ex, hnext_ex, hsegv⟩ := (seg_cons_iff g _ ex hd0 v).1 hsegev
  rw [← hnxtdef] at hnext_ex
  obtain ⟨eN, heN, heNn⟩ := lookup_of_optNext hnext_ex
  have hnxt_mem : nxt ∈ u ++ ex :: v := by
    rw [hnxtdef]
    cases v with
    | nil =>
      simp only [List.headD_nil]
      rw [hhd0]
      exact headD_mem (by simp) 0
    | cons n0 v' =>
      simp only [List.headD_cons]
      exact List.mem_append_right _ (List.mem_cons_of_mem ex (List.mem_cons_self n0 v'))
  have hbnxt : b ≠ nxt := fun hx => hbm (hx ▸ hnxt_mem)
  have hnxt_lookup : ∃ nd, List.lookup nxt g = some nd := by
    rcases List.mem_append.1 hnxt_mem with hx | hx
    · exact seg_lookup_mem hsegu nxt hx
    · rcases List.mem_cons.1 hx with hx0 | hx
      · rw [hx0]; exact ⟨eN, heN⟩
      · exact seg_lookup_mem hsegv nxt hx
  have hVn : ∀ x, optNext h' x =
      if x = ex then some b else if x = b then some nxt else optNext g x :=
    fun x => optNext_spliceHeap g ex b nxt x hbex hbnxt ⟨eN, heN⟩ hb
  have hVp : ∀ x, optPrev h' x =
      if x = nxt then some b else if x = b then some ex else optPrev g x :=
    fun x => optPrev_spliceHeap g ex b nxt x hbex hbnxt hnxt_lookup hb
  have hU : ∀ x, x ≠ ex → x ≠ b → x ≠ nxt → List.lookup x h' = List.lookup x g :=
    fun x h1 h2 h3 => lookup_spliceHeap_untouched g ex b nxt x h1 h2 h3
  have hH : (u ++ ex :: b :: v).headD 0 = hd0 := by
    rw [hhd0]; cases u <;> simp
  have hP : (u ++ ex :: b :: v).getLastD 0 = v.getLastD b := by
    rw [getLastD_append, getLastD_cons', getLastD_cons']
  rw [hH, hP, seg_append]
  constructor
  · -- the `u` part of the new cycle
    simp only [List.headD_cons]
    by_cases hv : v = []
    · subst hv
      cases u with
      | nil => exact seg_nil _ _ _
      | cons u0 u' =>
        have hhd0u : hd0 = u0 := by rw [hhd0]; simp
        have hu0nxt : u0 = nxt := by rw [hnxtdef, List.headD_nil, hhd0u]
        obtain ⟨hpu0, hnu0, hsegu'⟩ := (seg_cons_iff g _ u0 ex u').1 hsegu
        rw [List.nodup_cons] at hNu
        obtain ⟨hu0u', hNu'⟩ := hNu
        refine (seg_cons_iff h' _ u0 ex u').2 ⟨?_, ?_, ?_⟩
        · rw [hVp u0, if_pos hu0nxt]
          rfl
        · rw [hVn u0, if_neg, if_neg]
          · exact hnu0
          · exact fun hx => hbu (hx ▸ List.mem_cons_self u0 u')
          · exact fun hx => hexu (hx ▸ List.mem_cons_self u0 u')
        · refine seg_frame (fun y hy => hU y ?_ ?_ ?_) hsegu'
          · exact fun hx => hexu (hx ▸ List.mem_cons_of_mem u0 hy)
          · exact fun hx => hbu (hx ▸ List.mem_cons_of_mem u0 hy)
          · exact fun hx => hu0u' (hu0nxt ▸ hx ▸ hy)
    · -- v ≠ [] : the whole `u` segment is untouched
      have hgoal : v.getLastD b = L0 := by
        rw [hL0]
        exact getLastD_ne_nil hv b ex
      rw [hgoal]
      refine seg_frame (fun y hy => hU y ?_ ?_ ?_) hsegu
      · exact fun hx => hexu (hx ▸ hy)
      · exact fun hx => hbu (hx ▸ hy)
      · intro hx
        have : nxt ∈ v := by
          rw [hnxtdef]
          cases v with
          | nil => exact absurd rfl hv
          | cons n0 v' => simp
        exact hdisj (hx ▸ hy) (List.mem_cons_of_mem ex this)
  · -- the `ex :: b :: v` part of the new cycle
    refine (seg_cons_iff h' _ ex hd0 (b :: v)).2 ⟨?_, ?_,
      (seg_cons_iff h' ex b hd0 v).2 ⟨?_, ?_, ?_⟩⟩
    · -- prev of ex
      by_cases hexn : ex = nxt
      · have hv : v = [] := by
          cases v with
          | nil => rfl
          | cons n0 v' =>
            exfalso
            apply hexv
            rw [hexn, hnxtdef]
            simp
        have hu : u = [] := by
          subst hv
          cases u with
          | nil => rfl
          | cons u0 u' =>
            exfalso
            apply hexu
            have : hd0 = u0 := by rw [hhd0]; simp
            rw [hexn, hnxtdef, List.headD_nil, this]
            exact List.mem_cons_self u0 u'
        subst hv hu
        rw [hVp ex, if_pos hexn]
        rfl
      · rw [hVp ex, if_neg hexn, if_neg (fun hx => hbex hx.symm), hprev_ex]
        have : u.getLastD L0 = u.getLastD (v.getLastD b) := by
          cases u with
          | cons u0 u' => rw [getLastD_cons', getLastD_cons']
          | nil =>
            simp only [List.getLastD_nil]
            rw [hL0]
            cases v with
            | nil =>
              exfalso
              apply hexn
              rw [hnxtdef, List.headD_nil, hhd0]
              simp
            | cons n0 v' => rw [getLastD_cons', getLastD_cons']
        rw [this]
    · -- next of ex is b
      simp only [List.headD_cons]
      rw [hVn ex, if_pos rfl]
    · -- prev of b is ex
      rw [hVp b, if_neg hbnxt, if_pos rfl]
    · -- next of b is nxt
      rw [hVn b, if_neg hbex, if_pos rfl, hnxtdef]
    · -- the `v` segment
      cases v with
      | nil => exact seg_nil _ _ _
      | cons n0 v' =>
        have hn0 : nxt = n0 := by rw [hnxtdef]; simp
        obtain ⟨hp0, hn0x, hsegv'⟩ := (seg_cons_iff g ex n0 hd0 v').1 hsegv
        rw [List.nodup_cons] at hNv
        obtain ⟨hn0v', hNv'⟩ := hNv
        refine (seg_cons_iff h' b n0 hd0 v').2 ⟨?_, ?_, ?_⟩
        · rw [hVp n0, if_pos hn0.symm]
        · rw [hVn n0, if_neg, if_neg]
          · exact hn0x
          · exact fun hx => hbv (hx ▸ List.mem_cons_self n0 v')
          · exact fun hx => hexv (hx ▸ List.mem_cons_self n0 v')
        · refine seg_frame (fun y hy => hU y ?_ ?_ ?_) hsegv'
          · exact fun hx => hexv (hx ▸ List.mem_cons_of_mem n0 hy)
          · exact fun hx => hbv (hx ▸ List.mem_cons_of_mem n0 hy)
          · exact fun hx => hn0v' (hn0 ▸ hx ▸ hy)

end BusRoute

namespace BusRoute

theorem cyc_splice {g : Heap} {u v : List Nat} {ex b : Nat}
    (hN : (u ++ ex :: v).Nodup) (hbm : b ∉ u ++ ex :: v)
    (hb : ∃ nd, List.lookup b g = some nd)
    (hcyc : cyc g (u ++ ex :: v)) :
    cyc (spliceHeap g ex b (v.headD ((u ++ ex :: v).headD 0))) (u ++ ex :: b :: v) :=
  seg_splice hN hbm hb hcyc

/-- A cycle may be read starting at any of its nodes. -/
theorem cyc_rotate (h : Heap) (xs ys : List Nat) :
    cyc h (xs ++ ys) ↔ cyc h (ys ++ xs) := by
  rcases xs with _ | ⟨x, xs'⟩
  · simp
  rcases ys with _ | ⟨y, ys'⟩
  · simp
  have ex' : ∀ d, (x :: xs').getLastD d = (x :: xs').getLastD 0 :=
    fun d => getLastD_ne_nil (by simp) d 0
  have ey : ∀ d, (y :: ys').getLastD d = (y :: ys').getLastD 0 :=
    fun d => getLastD_ne_nil (by simp) d 0
  have hP : ((x :: xs') ++ y :: ys').getLastD 0 = (y :: ys').getLastD 0 := by
    rw [getLastD_append]; exact ey _
  have hH : ((x :: xs') ++ y :: ys').headD 0 = x := by simp
  have hP' : ((y :: ys') ++ x :: xs').getLastD 0 = (x :: xs').getLastD 0 := by
    rw [getLastD_append]; exact ex' _
  have hH' : ((y :: ys') ++ x :: xs').headD 0 = y := by simp
  unfold cyc
  rw [seg_append, seg_append, hP, hH, hP', hH']
  simp only [List.headD_cons]
  rw [ex' ((y :: ys').getLastD 0), ey ((x :: xs').getLastD 0)]
  exact and_comm


theorem getLastD_mem {xs : List Nat} (hx : xs ≠ []) (d : Nat) : xs.getLastD d ∈ xs := by
  rcases List.eq_nil_or_concat xs with rfl | ⟨L, z, rfl⟩
  · exact absurd rfl hx
  · rw [List.concat_eq_append, getLastD_append]
    simp

/-- Unlinking the head `t` of a cycle `t :: w` (with `w` non-empty) via
`p->next = n; n->prev = p` and freeing `t` leaves the cycle `w`. -/
theorem cyc_behead {g : Heap} {t : Nat} {w : List Nat}
    (hN : (t :: w).Nodup) (hw : w ≠ []) (hcyc : cyc g (t :: w)) :
    cyc (eraseKey (unlinkHeap g (w.getLastD 0) (w.headD 0)) t) w := by
  rcases w with _ | ⟨n0, w'⟩
  · exact absurd rfl hw
  rw [List.nodup_cons] at hN
  obtain ⟨htw, hNw⟩ := hN
  have htn0 : t ≠ n0 := fun hx => htw (hx ▸ List.mem_cons_self n0 w')
  have hn0w' : n0 ∉ w' := (List.nodup_cons.1 hNw).1
  have hNw' : w'.Nodup := (List.nodup_cons.1 hNw).2
  have hcyc' : seg g ((n0 :: w').getLastD 0) (t :: n0 :: w') t := by
    unfold cyc at hcyc
    rw [getLastD_cons', getLastD_ne_nil (by simp) t 0] at hcyc
    simpa using hcyc
  obtain ⟨hpt, hnt, hsegw⟩ := (seg_cons_iff g _ t t (n0 :: w')).1 hcyc'
  simp only [List.headD_cons] at hnt
  obtain ⟨hpn0, hnn0, hsegw'⟩ := (seg_cons_iff g t n0 t w').1 hsegw
  have hPmem : (n0 :: w').getLastD 0 ∈ n0 :: w' := getLastD_mem (by simp) 0
  have hPt : (n0 :: w').getLastD 0 ≠ t := fun hx => htw (hx ▸ hPmem)
  have hPlookup : ∃ nd, List.lookup ((n0 :: w').getLastD 0) g = some nd :=
    seg_lookup_mem hsegw _ hPmem
  obtain ⟨n0N, hn0N, -⟩ := lookup_of_optPrev hpn0
  have hVn : ∀ x, x ≠ t →
      optNext (eraseKey (unlinkHeap g ((n0 :: w').getLastD 0) n0) t) x =
        if x = (n0 :: w').getLastD 0 then some n0 else optNext g x := by
    intro x hx
    rw [optNext, lookup_eraseKey, if_neg hx, ← optNext,
      optNext_unlinkHeap g _ n0 x hPlookup]
  have hVp : ∀ x, x ≠ t →
      optPrev (eraseKey (unlinkHeap g ((n0 :: w').getLastD 0) n0) t) x =
        if x = n0 then some ((n0 :: w').getLastD 0) else optPrev g x := by
    intro x hx
    rw [optPrev, lookup_eraseKey, if_neg hx, ← optPrev,
      optPrev_unlinkHeap g _ n0 x ⟨n0N, hn0N⟩]
  have hU : ∀ x, x ≠ t → x ≠ (n0 :: w').getLastD 0 → x ≠ n0 →
      List.lookup x (eraseKey (unlinkHeap g ((n0 :: w').getLastD 0) n0) t) =
        List.lookup x g := by
    intro x h1 h2 h3
    rw [lookup_eraseKey, if_neg h1, lookup_unlinkHeap_untouched g _ n0 x h2 h3]
  unfold cyc
  simp only [List.headD_cons]
  refine (seg_cons_iff _ _ n0 n0 w').2 ⟨?_, ?_, ?_⟩
  · rw [hVp n0 (Ne.symm htn0), if_pos rfl]
  · rcases w' with _ | ⟨m, w''⟩
    · have hgl : (n0 :: ([] : List Nat)).getLastD 0 = n0 := by simp
      rw [hVn n0 (Ne.symm htn0), hgl, if_pos rfl]
      rfl
    · have hPm : (n0 :: m :: w'').getLastD 0 ∈ m :: w'' := by
        rw [getLastD_cons']
        exact getLastD_mem (by simp) n0
      have hn0P : n0 ≠ (n0 :: m :: w'').getLastD 0 := fun hx => hn0w' (hx ▸ hPm)
      rw [hVn n0 (Ne.symm htn0), if_neg hn0P]
      simpa using hnn0
  · rcases List.eq_nil_or_concat w' with h0 | ⟨mid, z, hz⟩
    · rw [h0]; exact seg_nil _ _ _
    · rw [List.concat_eq_append] at hz
      subst hz
      have hzP : (n0 :: (mid ++ [z])).getLastD 0 = z := by
        rw [getLastD_cons', getLastD_append]
        simp
      have hzmem : z ∈ mid ++ [z] := by simp
      have hzt : z ≠ t := fun hx => htw (hx ▸ List.mem_cons_of_mem n0 hzmem)
      have hzn0 : z ≠ n0 := fun hx => hn0w' (hx ▸ hzmem)
      have hzmid : z ∉ mid := by
        rw [List.nodup_append] at hNw'
        exact fun hx => hNw'.2.2 hx (by simp)
      rw [seg_append] at hsegw'
      obtain ⟨hsegmid, hsegz⟩ := hsegw'
      simp only [List.headD_cons] at hsegmid
      obtain ⟨hpz, hnz, -⟩ := (seg_cons_iff g _ z t []).1 hsegz
      rw [seg_append]
      constructor
      · simp only [List.headD_cons]
        refine seg_frame (fun y hy => hU y ?_ ?_ ?_) hsegmid
        · exact fun hx => htw (hx ▸ List.mem_cons_of_mem n0 (List.mem_append_left _ hy))
        · rw [hzP]
          exact fun hx => hzmid (hx ▸ hy)
        · exact fun hx => hn0w' (hx ▸ List.mem_append_left _ hy)
      · refine (seg_cons_iff _ _ z n0 []).2 ⟨?_, ?_, seg_nil _ _ _⟩
        · rw [hVp z hzt, if_neg hzn0]
          exact hpz
        · rw [hVn z hzt, hzP, if_pos rfl]
          rfl

end BusRoute

namespace BusRoute

/-- The payload stored at address `x` (ignoring the link fields). -/
def dataAt (h : Heap) (x : Nat) : Option (Nat × String × Int × Rat × Rat) :=
  (List.lookup x h).map Node.data

theorem InvWith_heap_nil {s : RState} (hI : InvWith s []) : s.heap = [] := by
  obtain ⟨-, -, hperm, -, -, -, -⟩ := hI
  have hkeys : keys s.heap = [] := hperm.eq_nil
  cases hh : s.heap with
  | nil => rfl
  | cons q t => rw [hh] at hkeys; simp [keys] at hkeys

theorem InvWith_mem_keys {s : RState} {as : List Nat} (hI : InvWith s as) (x : Nat) :
    x ∈ keys s.heap ↔ x ∈ as := hI.2.2.1.mem_iff

theorem InvWith_fresh {s : RState} {as : List Nat} (hI : InvWith s as) :
    s.next_addr ∉ keys s.heap :=
  fun hmem => absurd (hI.2.2.2.2.2.1 _ hmem) (lt_irrefl _)

/-- `create_stop` followed by `insert_after` on a located reference: the
fresh node is spliced right after it, the invariant is preserved, the
traversal order gains the new node right after `ex`, the new node carries a
fresh id, and all other payloads are untouched. -/
theorem insertAfterNew_spec {s : RState} {as u v : List Nat} {ex : Nat}
    (hI : InvWith s as) (hsplit : as = u ++ ex :: v)
    (nm : String) (pa : Int) (d t : Rat) :
    ∃ s', insertAfterNew s (some ex) nm pa d t = some s' ∧
      InvWith s' (u ++ ex :: s.next_addr :: v) ∧
      s'.head = s.head ∧ s'.next_id = s.next_id + 1 ∧
      s'.next_addr = s.next_addr + 1 ∧
      dataAt s'.heap s.next_addr =
        some (s.next_id, String.mk (nm.data.take 63), pa, d, t) ∧
      (∀ x, x ≠ s.next_addr → dataAt s'.heap x = dataAt s.heap x) := by
  obtain ⟨hkN, hasN, hperm, hhead, hseg, haddr, hid⟩ := hI
  subst hsplit
  have hbfresh : s.next_addr ∉ keys s.heap := fun hmem => absurd (haddr _ hmem) (lt_irrefl _)
  have hbas : s.next_addr ∉ u ++ ex :: v := fun hmem => hbfresh (hperm.mem_iff.2 hmem)
  have hexmem : ex ∈ u ++ ex :: v := List.mem_append_right _ (List.mem_cons_self ex v)
  have hexb : ex ≠ s.next_addr := fun hx => hbas (hx ▸ hexmem)
  have hnext_ex : optNext s.heap ex = some (v.headD ((u ++ ex :: v).headD 0)) := by
    unfold cyc at hseg
    exact seg_next_of_split hseg
  obtain ⟨eN, heN, heNn⟩ := lookup_of_optNext hnext_ex
  have hgex : List.lookup ex
      ((s.next_addr, (⟨s.next_id, String.mk (nm.data.take 63), pa, d, t, none, none⟩ : Node)) :: s.heap) = some eN := by
    rw [lookup_cons', if_neg hexb]
    exact heN
  have heq : insertAfterNew s (some ex) nm pa d t = some
      { heap := spliceHeap
          ((s.next_addr, (⟨s.next_id, String.mk (nm.data.take 63), pa, d, t, none, none⟩ : Node)) :: s.heap)
          ex s.next_addr (v.headD ((u ++ ex :: v).headD 0)),
        head := s.head, next_id := s.next_id + 1, next_addr := s.next_addr + 1 } := by
    show insert_after
        { heap := (s.next_addr, (⟨s.next_id, String.mk (nm.data.take 63), pa, d, t, none, none⟩ : Node)) :: s.heap,
          head := s.head, next_id := s.next_id + 1, next_addr := s.next_addr + 1 }
        (some ex) s.next_addr = _
    rw [insert_after_eq_splice _ ex s.next_addr (v.headD ((u ++ ex :: v).headD 0)) eN hgex heNn]
  refine ⟨_, heq, ⟨?_, ?_, ?_, ?_, ?_, ?_, ?_⟩, rfl, rfl, rfl, ?_, ?_⟩
  · -- keys nodup
    rw [keys_spliceHeap]
    exact List.nodup_cons.2 ⟨hbfresh, hkN⟩
  · -- list nodup
    have hpermL : (u ++ ex :: s.next_addr :: v).Perm (s.next_addr :: (u ++ ex :: v)) := by
      have h1 : u ++ ex :: s.next_addr :: v = (u ++ [ex]) ++ s.next_addr :: v := by simp
      have h2 : (u ++ [ex]) ++ v = u ++ ex :: v := by simp
      rw [h1, ← h2]
      exact List.perm_middle
    exact hpermL.nodup_iff.2 (List.nodup_cons.2 ⟨hbas, hasN⟩)
  · -- keys ~ list
    rw [keys_spliceHeap]
    have h0 : keys ((s.next_addr, (⟨s.next_id, String.mk (nm.data.take 63), pa, d, t, none, none⟩ : Node)) :: s.heap) =
        s.next_addr :: keys s.heap := rfl
    rw [h0]
    have hpermL : (u ++ ex :: s.next_addr :: v).Perm (s.next_addr :: (u ++ ex :: v)) := by
      have h1 : u ++ ex :: s.next_addr :: v = (u ++ [ex]) ++ s.next_addr :: v := by simp
      have h2 : (u ++ [ex]) ++ v = u ++ ex :: v := by simp
      rw [h1, ← h2]
      exact List.perm_middle
    exact (hperm.cons s.next_addr).trans hpermL.symm
  · -- head
    rw [hhead]
    cases u <;> simp
  · -- cyc
    have hcycg : cyc ((s.next_addr, (⟨s.next_id, String.mk (nm.data.take 63), pa, d, t, none, none⟩ : Node)) :: s.heap)
        (u ++ ex :: v) := by
      unfold cyc at hseg ⊢
      refine seg_frame (fun y hy => ?_) hseg
      have hyb : ¬y = s.next_addr := fun hx => hbas (hx ▸ hy)
      rw [lookup_cons', if_neg hyb]
    exact cyc_splice hasN hbas ⟨_, by rw [lookup_cons', if_pos rfl]⟩ hcycg
  · -- address bounds
    intro a ha
    rw [keys_spliceHeap] at ha
    rcases List.mem_cons.1 ha with rfl | ha
    · dsimp only
      omega
    · dsimp only
      exact Nat.lt_succ_of_lt (haddr a ha)
  · -- id bounds
    intro q hq
    obtain ⟨k, w⟩ := q
    obtain ⟨v0, hv0, hidq⟩ := id_of_mem_spliceHeap hq
    rcases List.mem_cons.1 hv0 with hv0 | hv0
    · have : v0 = ⟨s.next_id, String.mk (nm.data.take 63), pa, d, t, none, none⟩ :=
        congrArg Prod.snd hv0
      rw [hidq, this]
      dsimp only
      omega
    · have h5 := hid (k, v0) hv0
      dsimp only at h5 ⊢
      omega
  · -- fresh payload
    show (List.lookup s.next_addr (spliceHeap _ _ _ _)).map Node.data = _
    rw [lookup_map_data_spliceHeap, lookup_cons', if_pos rfl]
    rfl
  · -- payload frame
    intro x hx
    show (List.lookup x (spliceHeap _ _ _ _)).map Node.data = _
    rw [lookup_map_data_spliceHeap, lookup_cons', if_neg hx]
    rfl

end BusRoute

namespace BusRoute

theorem head?_eq_headD {l : List Nat} (hl : l ≠ []) : l.head? = some (l.headD 0) := by
  cases l with
  | nil => exact absurd rfl hl
  | cons a l => rfl

/-- `insert_end(create_stop(...))`: appends the fresh node at the end of the
traversal order (becoming the new tail) and preserves the invariant. -/
theorem insertEndNew_spec {s : RState} {as : List Nat}
    (hI : InvWith s as) (nm : String) (pa : Int) (d t : Rat) :
    ∃ s', insertEndNew s nm pa d t = some s' ∧
      InvWith s' (as ++ [s.next_addr]) ∧
      s'.next_id = s.next_id + 1 ∧ s'.next_addr = s.next_addr + 1 ∧
      dataAt s'.heap s.next_addr =
        some (s.next_id, String.mk (nm.data.take 63), pa, d, t) ∧
      (∀ x, x ≠ s.next_addr → dataAt s'.heap x = dataAt s.heap x) := by
  rcases List.eq_nil_or_concat as with rfl | ⟨u0, tl, hsplit⟩
  · -- empty route: the node becomes head and its own neighbour
    have hheap : s.heap = [] := InvWith_heap_nil hI
    obtain ⟨hkN, hasN, hperm, hhead, hseg, haddr, hid⟩ := hI
    have hheadn : s.head = none := by rw [hhead]; rfl
    have heq : insertEndNew s nm pa d t = some
        { heap := [(s.next_addr,
            (⟨s.next_id, String.mk (nm.data.take 63), pa, d, t,
              some s.next_addr, some s.next_addr⟩ : Node))],
          head := some s.next_addr, next_id := s.next_id + 1,
          next_addr := s.next_addr + 1 } := by
      simp [insertEndNew, create_stop, insert_end, hheadn, hheap, hupd]
    refine ⟨_, heq, ⟨?_, ?_, ?_, ?_, ?_, ?_, ?_⟩, rfl, rfl, ?_, ?_⟩
    · simp [keys]
    · simp
    · simp [keys]
    · rfl
    · refine (seg_cons_iff _ _ _ _ _).2 ⟨?_, ?_, seg_nil _ _ _⟩
      · rw [optPrev, lookup_cons', if_pos rfl]
        rfl
      · rw [optNext, lookup_cons', if_pos rfl]
        rfl
    · intro a ha
      simp [keys] at ha
      subst ha
      dsimp only
      omega
    · intro q hq
      simp only [List.mem_singleton] at hq
      rw [hq]
      dsimp only
      omega
    · rw [dataAt, lookup_cons', if_pos rfl]
      rfl
    · intro x hx
      rw [dataAt, lookup_cons', if_neg hx, hheap, dataAt]
  · -- non-empty route: inserting at the end is splicing after the tail
    rw [List.concat_eq_append] at hsplit
    subst hsplit
    obtain ⟨s', heq, hIw, hh, h3, h4, h5, h7⟩ := insertAfterNew_spec hI rfl nm pa d t
    obtain ⟨hkN, hasN, hperm, hhead, hseg, haddr, hid⟩ := hI
    have hbfresh : s.next_addr ∉ keys s.heap :=
      fun hmem => absurd (haddr _ hmem) (lt_irrefl _)
    have hbas : s.next_addr ∉ u0 ++ [tl] :=
      fun hmem => hbfresh (hperm.mem_iff.2 hmem)
    have hne : u0 ++ [tl] ≠ [] := by simp
    have hhd : s.head = some ((u0 ++ [tl]).headD 0) := by
      rw [hhead, head?_eq_headD hne]
    have hnext_tl : optNext s.heap tl = some ((u0 ++ [tl]).headD 0) := by
      unfold cyc at hseg
      have := seg_next_of_split hseg
      simpa using this
    have hprev_hd : optPrev s.heap ((u0 ++ [tl]).headD 0) = some tl := by
      unfold cyc at hseg
      rcases hu0 : u0 with _ | ⟨a0, u0'⟩
      · subst hu0
        obtain ⟨hp, -, -⟩ := (seg_cons_iff _ _ tl _ []).1 hseg
        simpa using hp
      · subst hu0
        obtain ⟨hp, -, -⟩ := (seg_cons_iff _ _ a0 _ (u0' ++ [tl])).1 hseg
        have hgl : ((a0 :: u0') ++ [tl]).getLastD 0 = tl := by
          rw [getLastD_append]
          simp
        rw [hgl] at hp
        simpa using hp
    obtain ⟨hdN, hhdN, hhdNp⟩ := lookup_of_optPrev hprev_hd
    obtain ⟨tlN, htlN, htlNn⟩ := lookup_of_optNext hnext_tl
    have hhdb : (u0 ++ [tl]).headD 0 ≠ s.next_addr :=
      fun hx => hbas (hx ▸ headD_mem hne 0)
    have htlb : tl ≠ s.next_addr :=
      fun hx => hbas (hx ▸ List.mem_append_right _ (List.mem_cons_self tl []))
    have hc2 : (create_stop s nm pa d t).2.heap =
        (s.next_addr,
          (⟨s.next_id, String.mk (nm.data.take 63), pa, d, t, none, none⟩ : Node)) :: s.heap := rfl
    have hlk1 : List.lookup ((u0 ++ [tl]).headD 0) (create_stop s nm pa d t).2.heap = some hdN := by
      rw [hc2, lookup_cons', if_neg hhdb]
      exact hhdN
    have hlk2 : List.lookup tl (create_stop s nm pa d t).2.heap = some tlN := by
      rw [hc2, lookup_cons', if_neg htlb]
      exact htlN
    have hhd2 : (create_stop s nm pa d t).2.head = some ((u0 ++ [tl]).headD 0) := hhd
    have hends : insertEndNew s nm pa d t = insertAfterNew s (some tl) nm pa d t := by
      show insert_end (create_stop s nm pa d t).2 (create_stop s nm pa d t).1 =
        insert_after (create_stop s nm pa d t).2 (some tl) (create_stop s nm pa d t).1
      rw [insert_end_eq_splice (create_stop s nm pa d t).2 (create_stop s nm pa d t).1
          ((u0 ++ [tl]).headD 0) tl hdN hhd2 hlk1 hhdNp,
        insert_after_eq_splice (create_stop s nm pa d t).2 tl (create_stop s nm pa d t).1
          ((u0 ++ [tl]).headD 0) tlN hlk2 htlNn]
    refine ⟨s', by rw [hends]; exact heq, ?_, h3, h4, h5, h7⟩
    have hlist : u0 ++ tl :: s.next_addr :: [] = (u0 ++ [tl]) ++ [s.next_addr] := by simp
    rw [← hlist]
    exact hIw

end BusRoute

namespace BusRoute

/-- The `next`-links along a list: each element's `next` field points to the
following element, and the last one's to `z`. -/
def nexts (h : Heap) : List Nat → Nat → Prop
  | [], _ => True
  | x :: xs, z => optNext h x = some (xs.headD z) ∧ nexts h xs z

theorem nexts_of_seg {h : Heap} {p n : Nat} {xs : List Nat}
    (hs : seg h p xs n) : nexts h xs n := by
  induction xs generalizing p with
  | nil => exact trivial
  | cons x xs ih =>
    obtain ⟨-, h2, h3⟩ := (seg_cons_iff h p x n xs).1 hs
    exact ⟨h2, ih h3⟩

theorem nexts_append (h : Heap) (xs ys : List Nat) (z : Nat) :
    nexts h (xs ++ ys) z ↔ nexts h xs (ys.headD z) ∧ nexts h ys z := by
  induction xs with
  | nil => simp [nexts]
  | cons x xs ih =>
    simp only [List.cons_append, nexts, List.append_eq, headD_append, ih]
    tauto

theorem nexts_lookup {h : Heap} {xs : List Nat} {z : Nat} (hs : nexts h xs z) :
    ∀ x ∈ xs, ∃ nd, List.lookup x h = some nd := by
  induction xs with
  | nil => intro x hx; simp at hx
  | cons y ys ih =>
    intro x hx
    rcases List.mem_cons.1 hx with rfl | hx
    · obtain ⟨nd, hnd, -⟩ := lookup_of_optNext hs.1
      exact ⟨nd, hnd⟩
    · exact ih hs.2 x hx

/-- Whether the stop at address `x` matches name `nm` case-insensitively. -/
def nameMatches (h : Heap) (nm : String) (x : Nat) : Bool :=
  match List.lookup x h with
  | none => false
  | some nd => decide (eqNoCase nd.name nm)

theorem find_loop_spec (h : Heap) (hd : Nat) (nm : String) :
    ∀ (path : List Nat) (fuel : Nat), path ≠ [] →
      nexts h path hd → (∀ x ∈ path.tail, x ≠ hd) → path.length ≤ fuel →
      find_loop h hd nm fuel (path.headD 0) =
        some (path.find? (nameMatches h nm)) := by
  intro path
  induction path with
  | nil => intro fuel hne; exact absurd rfl hne
  | cons x rest ih =>
    intro fuel hne hnx htl hlen
    obtain ⟨hx1, hx2⟩ := hnx
    obtain ⟨nd, hnd, hndn⟩ := lookup_of_optNext hx1
    rcases fuel with _ | f
    · simp at hlen
    simp only [List.headD_cons]
    simp only [find_loop, hnd, Option.bind_eq_bind, Option.some_bind]
    by_cases hm : eqNoCase nd.name nm
    · rw [if_pos hm]
      have hmt : nameMatches h nm x = true := by
        rw [nameMatches, hnd]
        simpa using hm
      rw [List.find?_cons_of_pos _ hmt]
    · rw [if_neg hm]
      have hmf : nameMatches h nm x = false := by
        rw [nameMatches, hnd]
        simpa using hm
      rw [List.find?_cons_of_neg _ (by simp [hmf]), hndn]
      simp only [Option.some_bind]
      rcases rest with _ | ⟨y, rest'⟩
      · simp
      · simp only [List.headD_cons]
        rw [if_neg (htl y (List.mem_cons_self y rest'))]
        have := ih f (by simp) hx2
          (fun z hz => htl z (List.mem_cons_of_mem y hz)) (by simp at hlen ⊢; omega)
        simpa using this

theorem heap_length_eq {s : RState} {as : List Nat}
    (hperm : (keys s.heap).Perm as) : s.heap.length = as.length := by
  have h1 := hperm.length_eq
  simpa [keys] using h1

/-- `find_by_name` returns the first match in traversal order. -/
theorem find_by_name_spec {s : RState} {as : List Nat} (hI : InvWith s as)
    (nm : String) :
    find_by_name s nm = some (as.find? (nameMatches s.heap nm)) := by
  obtain ⟨hkN, hasN, hperm, hhead, hseg, haddr, hid⟩ := hI
  rcases has : as with _ | ⟨a0, rest⟩
  · subst has
    have hh : s.head = none := by rw [hhead]; rfl
    simp only [find_by_name, hh]
    rfl
  · subst has
    have hh : s.head = some a0 := by rw [hhead]; rfl
    rw [find_by_name, hh]
    have hnx : nexts s.heap (a0 :: rest) a0 := by
      have := nexts_of_seg hseg
      simpa using this
    have htl : ∀ x ∈ (a0 :: rest).tail, x ≠ a0 := by
      intro x hx hxa
      rw [List.nodup_cons] at hasN
      exact hasN.1 (hxa ▸ hx)
    have hlen : (a0 :: rest).length ≤ s.heap.length :=
      le_of_eq (heap_length_eq hperm).symm
    have := find_loop_spec s.heap a0 nm (a0 :: rest) s.heap.length (by simp) hnx htl hlen
    simpa using this

theorem travFrom_spec (h : Heap) (hd : Nat) :
    ∀ (path : List Nat) (fuel : Nat), path ≠ [] →
      nexts h path hd → (∀ x ∈ path.tail, x ≠ hd) → path.length ≤ fuel →
      travFrom h hd fuel (path.headD 0) = some path := by
  intro path
  induction path with
  | nil => intro fuel hne; exact absurd rfl hne
  | cons x rest ih =>
    intro fuel hne hnx htl hlen
    obtain ⟨hx1, hx2⟩ := hnx
    obtain ⟨nd, hnd, hndn⟩ := lookup_of_optNext hx1
    rcases fuel with _ | f
    · simp at hlen
    simp only [List.headD_cons]
    simp only [travFrom, hnd, Option.bind_eq_bind, Option.some_bind, hndn]
    rcases rest with _ | ⟨y, rest'⟩
    · simp
    · simp only [List.headD_cons]
      rw [if_neg (htl y (List.mem_cons_self y rest'))]
      have := ih f (by simp) hx2
        (fun z hz => htl z (List.mem_cons_of_mem y hz)) (by simp at hlen ⊢; omega)
      simp only [List.headD_cons] at this
      rw [this]
      rfl

/-- `travList` of a valid route returns exactly the invariant's address
list. -/
theorem travList_spec {s : RState} {as : List Nat} (hI : InvWith s as) :
    travList s = some as := by
  obtain ⟨hkN, hasN, hperm, hhead, hseg, haddr, hid⟩ := hI
  rcases has : as with _ | ⟨a0, rest⟩
  · subst has
    have hh : s.head = none := by rw [hhead]; rfl
    simp only [travList, hh]
  · subst has
    have hh : s.head = some a0 := by rw [hhead]; rfl
    rw [travList, hh]
    have hnx : nexts s.heap (a0 :: rest) a0 := by
      have := nexts_of_seg hseg
      simpa using this
    have htl : ∀ x ∈ (a0 :: rest).tail, x ≠ a0 := by
      intro x hx hxa
      rw [List.nodup_cons] at hasN
      exact hasN.1 (hxa ▸ hx)
    have hlen : (a0 :: rest).length ≤ s.heap.length :=
      le_of_eq (heap_length_eq hperm).symm
    have := travFrom_spec s.heap a0 (a0 :: rest) s.heap.length (by simp) hnx htl hlen
    simpa using this

end BusRoute

namespace BusRoute

/-- The outgoing edge weights stored at address `x`. -/
def edgeD (h : Heap) (x : Nat) : Rat × Rat :=
  match List.lookup x h with
  | none => (0, 0)
  | some nd => (nd.dist_to_next, nd.time_to_next)

theorem ttLoop_spec (h : Heap) (hd : Nat) :
    ∀ (path : List Nat) (fuel : Nat) (acc : Rat × Rat), path ≠ [] →
      nexts h path hd → (∀ x ∈ path.tail, x ≠ hd) → path.length ≤ fuel →
      ttLoop h hd fuel (path.headD 0) acc =
        some (acc.1 + (path.map fun x => (edgeD h x).1).sum,
              acc.2 + (path.map fun x => (edgeD h x).2).sum) := by
  intro path
  induction path with
  | nil => intro fuel acc hne; exact absurd rfl hne
  | cons x rest ih =>
    intro fuel acc hne hnx htl hlen
    obtain ⟨hx1, hx2⟩ := hnx
    obtain ⟨nd, hnd, hndn⟩ := lookup_of_optNext hx1
    rcases fuel with _ | f
    · simp at hlen
    simp only [List.headD_cons]
    simp only [ttLoop, hnd, Option.bind_eq_bind, Option.some_bind, hndn]
    rcases rest with _ | ⟨y, rest'⟩
    · simp [edgeD, hnd]
    · simp only [List.headD_cons]
      rw [if_neg (htl y (List.mem_cons_self y rest'))]
      have := ih f (acc.1 + nd.dist_to_next, acc.2 + nd.time_to_next) (by simp) hx2
        (fun z hz => htl z (List.mem_cons_of_mem y hz)) (by simp at hlen ⊢; omega)
      simp only [List.headD_cons] at this
      rw [this]
      simp [edgeD, hnd, add_assoc]

theorem total_distance_time_spec {s : RState} {as : List Nat}
    (hI : InvWith s as) :
    total_distance_time s =
      some ((as.map fun x => (edgeD s.heap x).1).sum,
            (as.map fun x => (edgeD s.heap x).2).sum) := by
  obtain ⟨hkN, hasN, hperm, hhead, hseg, haddr, hid⟩ := hI
  rcases has : as with _ | ⟨a0, rest⟩
  · subst has
    have hh : s.head = none := by rw [hhead]; rfl
    simp [total_distance_time, hh]
  · subst has
    have hh : s.head = some a0 := by rw [hhead]; rfl
    rw [total_distance_time, hh]
    have hnx : nexts s.heap (a0 :: rest) a0 := by
      have := nexts_of_seg hseg
      simpa using this
    have htl : ∀ x ∈ (a0 :: rest).tail, x ≠ a0 := by
      intro x hx hxa
      rw [List.nodup_cons] at hasN
      exact hasN.1 (hxa ▸ hx)
    have hlen : (a0 :: rest).length ≤ s.heap.length :=
      le_of_eq (heap_length_eq hperm).symm
    have := ttLoop_spec s.heap a0 (a0 :: rest) s.heap.length (0, 0) (by simp) hnx htl hlen
    simpa using this

theorem dbLoop_spec (h : Heap) (start target : Nat) :
    ∀ (path : List Nat) (fuel : Nat) (acc : Rat × Rat), path ≠ [] →
      nexts h path target → target ∉ path → (∀ x ∈ path.tail, x ≠ start) →
      path.length ≤ fuel →
      dbLoop h start target fuel (path.headD 0) acc =
        some (true, acc.1 + (path.map fun x => (edgeD h x).1).sum,
              acc.2 + (path.map fun x => (edgeD h x).2).sum) := by
  intro path
  induction path with
  | nil => intro fuel acc hne; exact absurd rfl hne
  | cons x rest ih =>
    intro fuel acc hne hnx htg htl hlen
    obtain ⟨hx1, hx2⟩ := hnx
    obtain ⟨nd, hnd, hndn⟩ := lookup_of_optNext hx1
    rcases fuel with _ | f
    · simp at hlen
    simp only [List.headD_cons]
    simp only [dbLoop, hnd, Option.bind_eq_bind, Option.some_bind, hndn]
    rcases rest with _ | ⟨y, rest'⟩
    · simp [edgeD, hnd]
    · simp only [List.headD_cons]
      have hyt : y ≠ target := fun hx => htg (hx ▸ List.mem_cons_of_mem x (List.mem_cons_self y rest'))
      have hys : y ≠ start := htl y (List.mem_cons_self y rest')
      rw [if_neg hyt, if_neg hys]
      have := ih f (acc.1 + nd.dist_to_next, acc.2 + nd.time_to_next) (by simp) hx2
        (fun hx => htg (List.mem_cons_of_mem x hx))
        (fun z hz => htl z (List.mem_cons_of_mem y hz)) (by simp at hlen ⊢; omega)
      simp only [List.headD_cons] at this
      rw [this]
      simp [edgeD, hnd, add_assoc]

theorem walkPos_spec (h : Heap) (hd : Nat) :
    ∀ (path : List Nat) (fuel idx pos1 : Nat), path ≠ [] →
      nexts h path hd → (∀ x ∈ path.tail, x ≠ hd) → path.length ≤ fuel →
      walkPos h hd fuel (path.headD 0) idx pos1 =
        some (path.getD (min (pos1 - idx) (path.length - 1)) 0) := by
  intro path
  induction path with
  | nil => intro fuel idx pos1 hne; exact absurd rfl hne
  | cons x rest ih =>
    intro fuel idx pos1 hne hnx htl hlen
    obtain ⟨hx1, hx2⟩ := hnx
    obtain ⟨nd, hnd, hndn⟩ := lookup_of_optNext hx1
    rcases fuel with _ | f
    · simp at hlen
    simp only [List.headD_cons]
    simp only [walkPos, hnd, Option.bind_eq_bind, Option.some_bind, hndn]
    rcases rest with _ | ⟨y, rest'⟩
    · simp only [List.headD_nil]
      rw [if_neg (by simp)]
      simp
    · simp only [List.headD_cons]
      have hy : y ≠ hd := htl y (List.mem_cons_self y rest')
      by_cases hc : idx < pos1
      · rw [if_pos ⟨hy, hc⟩]
        have := ih f (idx + 1) pos1 (by simp) hx2
          (fun z hz => htl z (List.mem_cons_of_mem y hz)) (by simp at hlen ⊢; omega)
        simp only [List.headD_cons] at this
        rw [this]
        have harith : min (pos1 - idx) ((x :: y :: rest').length - 1) =
            min (pos1 - (idx + 1)) ((y :: rest').length - 1) + 1 := by
          simp only [List.length_cons]
          omega
        rw [harith, List.getD_cons_succ]
      · rw [if_neg (by tauto)]
        have h0 : pos1 - idx = 0 := by omega
        simp [h0]

/-- Advancing along `next` pointers `k` times. -/
def stepN (h : Heap) : Nat → Nat → Option Nat
  | 0, a => some a
  | k + 1, a => (optNext h a).bind (stepN h k)

theorem stepN_of_nexts (h : Heap) (z : Nat) :
    ∀ path : List Nat, path ≠ [] → nexts h path z →
      stepN h path.length (path.headD 0) = some z := by
  intro path
  induction path with
  | nil => intro h1; exact absurd rfl h1
  | cons x rest ih =>
    intro hne hnx
    obtain ⟨hx1, hx2⟩ := hnx
    simp only [List.length_cons, List.headD_cons, stepN, hx1, Option.bind_eq_bind,
      Option.some_bind]
    rcases rest with _ | ⟨y, rest'⟩
    · simp [stepN]
    · simp only [List.headD_cons]
      have := ih (by simp) hx2
      simpa using this

end BusRoute

namespace BusRoute

theorem nexts_frame {h h' : Heap} {xs : List Nat} {z : Nat}
    (hagree : ∀ x ∈ xs, List.lookup x h' = List.lookup x h) (hs : nexts h xs z) :
    nexts h' xs z := by
  induction xs with
  | nil => exact trivial
  | cons x xs ih =>
    refine ⟨?_, ih (fun y hy => hagree y (List.mem_cons_of_mem x hy)) hs.2⟩
    rw [optNext, hagree x (List.mem_cons_self x xs)]
    exact hs.1

theorem list_split_at {as : List Nat} {j : Nat} (hj : j < as.length) :
    as = as.take j ++ as.getD j 0 :: as.drop (j + 1) := by
  conv_lhs => rw [← List.take_append_drop j as]
  rw [List.drop_eq_getElem_cons hj, List.getD_eq_getElem as 0 hj]

/-- Re-rooting a cycle at another of its nodes keeps the invariant. -/
theorem InvWith_rehead {s : RState} {xs ys : List Nat}
    (hI : InvWith s (xs ++ ys)) :
    InvWith { s with head := (ys ++ xs).head? } (ys ++ xs) := by
  obtain ⟨hkN, hasN, hperm, hhead, hseg, haddr, hid⟩ := hI
  have hpc : (xs ++ ys).Perm (ys ++ xs) := List.perm_append_comm
  exact ⟨hkN, hpc.nodup_iff.1 hasN, hperm.trans hpc, rfl,
    (cyc_rotate s.heap xs ys).1 hseg, haddr, hid⟩

theorem insert_at_position_le_one (s : RState) (node hd tl : Nat) (hdN : Node)
    (pos : Int) (hpos : pos ≤ 1) (hhead : s.head = some hd)
    (h1 : List.lookup hd s.heap = some hdN) (h2 : hdN.prev = some tl)
    (hnt : node ≠ tl) :
    insert_at_position s node pos =
      some { s with heap := spliceHeap s.heap tl node hd, head := some node } := by
  simp only [insert_at_position, hhead, if_pos hpos, h1, h2, Option.bind_eq_bind,
    Option.some_bind]
  rw [insert_pos1_heap_eq s.heap node tl hd hnt]

end BusRoute

namespace BusRoute

/-- `insert_at_position(create_stop(...), pos)` on an empty route or with
`pos <= 1`: the fresh node becomes the new head; the old head, if any,
becomes its successor. -/
theorem insertAtPositionNew_head_spec {s : RState} {as : List Nat}
    (hI : InvWith s as) (nm : String) (pa : Int) (d t : Rat) (pos : Int)
    (hpos : as = [] ∨ pos ≤ 1) :
    ∃ s', insertAtPositionNew s nm pa d t pos = some s' ∧
      InvWith s' (s.next_addr :: as) ∧
      s'.head = some s.next_addr ∧
      s'.next_id = s.next_id + 1 ∧ s'.next_addr = s.next_addr + 1 ∧
      dataAt s'.heap s.next_addr =
        some (s.next_id, String.mk (nm.data.take 63), pa, d, t) ∧
      (∀ x, x ≠ s.next_addr → dataAt s'.heap x = dataAt s.heap x) := by
  rcases has0 : as with _ | ⟨a0, rest⟩
  · -- empty route: same code path as `insert_end` on an empty route
    have hheap : s.heap = [] := InvWith_heap_nil (has0 ▸ hI)
    have hheadn : s.head = none := by
      obtain ⟨-, -, -, hhead, -⟩ := hI
      rw [hhead, has0]
      rfl
    have hsame : insertAtPositionNew s nm pa d t pos = insertEndNew s nm pa d t := by
      show insert_at_position (create_stop s nm pa d t).2 (create_stop s nm pa d t).1 pos =
        insert_end (create_stop s nm pa d t).2 (create_stop s nm pa d t).1
      have hch : (create_stop s nm pa d t).2.head = none := hheadn
      simp only [insert_at_position, insert_end, hch]
    obtain ⟨s', heq, hIw, h3, h4, h5, h6⟩ := insertEndNew_spec (has0 ▸ hI) nm pa d t
    refine ⟨s', by rw [hsame]; exact heq, by simpa using hIw, ?_, h3, h4, h5, h6⟩
    obtain ⟨-, -, -, hhead', -⟩ := hIw
    rw [hhead']
    rfl
  · -- non-empty route with pos ≤ 1: the new node takes over the head links
    have hp1 : pos ≤ 1 := by
      rcases hpos with hx | hx
      · rw [has0] at hx; exact absurd hx (by simp)
      · exact hx
    subst has0
    obtain ⟨hkN, hasN, hperm, hhead, hseg, haddr, hid⟩ := hI
    have hbfresh : s.next_addr ∉ keys s.heap :=
      fun hmem => absurd (haddr _ hmem) (lt_irrefl _)
    have hbas : s.next_addr ∉ a0 :: rest := fun hmem => hbfresh (hperm.mem_iff.2 hmem)
    have hh : s.head = some a0 := by rw [hhead]; rfl
    have hprev_a0 : optPrev s.heap a0 = some ((a0 :: rest).getLastD 0) := by
      unfold cyc at hseg
      exact ((seg_cons_iff _ _ a0 _ rest).1 hseg).1
    obtain ⟨hdN, hhdN, hhdNp⟩ := lookup_of_optPrev hprev_a0
    have ha0b : a0 ≠ s.next_addr := fun hx => hbas (hx ▸ List.mem_cons_self a0 rest)
    have htlmem : (a0 :: rest).getLastD 0 ∈ a0 :: rest := getLastD_mem (by simp) 0
    have htlb : s.next_addr ≠ (a0 :: rest).getLastD 0 := fun hx => hbas (hx ▸ htlmem)
    have hc2 : (create_stop s nm pa d t).2.heap =
        (s.next_addr,
          (⟨s.next_id, String.mk (nm.data.take 63), pa, d, t, none, none⟩ : Node)) :: s.heap := rfl
    have hlk1 : List.lookup a0 (create_stop s nm pa d t).2.heap = some hdN := by
      rw [hc2, lookup_cons', if_neg ha0b]
      exact hhdN
    have hch : (create_stop s nm pa d t).2.head = some a0 := hh
    have heqPos : insertAtPositionNew s nm pa d t pos = some
        { heap := spliceHeap (create_stop s nm pa d t).2.heap
            ((a0 :: rest).getLastD 0) s.next_addr a0,
          head := some s.next_addr,
          next_id := s.next_id + 1, next_addr := s.next_addr + 1 } := by
      show insert_at_position (create_stop s nm pa d t).2 (create_stop s nm pa d t).1 pos = _
      rw [insert_at_position_le_one (create_stop s nm pa d t).2
        (create_stop s nm pa d t).1 a0 ((a0 :: rest).getLastD 0) hdN pos hp1 hch hlk1 hhdNp htlb]
      rfl
    have heqEnd : insertEndNew s nm pa d t = some
        { heap := spliceHeap (create_stop s nm pa d t).2.heap
            ((a0 :: rest).getLastD 0) s.next_addr a0,
          head := s.head,
          next_id := s.next_id + 1, next_addr := s.next_addr + 1 } := by
      show insert_end (create_stop s nm pa d t).2 (create_stop s nm pa d t).1 = _
      rw [insert_end_eq_splice (create_stop s nm pa d t).2 (create_stop s nm pa d t).1 a0
        ((a0 :: rest).getLastD 0) hdN hch hlk1 hhdNp]
      rfl
    obtain ⟨s', heq, hIw, h3, h4, h5, h6⟩ :=
      insertEndNew_spec (⟨hkN, hasN, hperm, hhead, hseg, haddr, hid⟩ : InvWith s (a0 :: rest)) nm pa d t
    have hs'X : s' =
        { heap := spliceHeap (create_stop s nm pa d t).2.heap
            ((a0 :: rest).getLastD 0) s.next_addr a0,
          head := s.head,
          next_id := s.next_id + 1, next_addr := s.next_addr + 1 } :=
      Option.some.inj (heq.symm.trans heqEnd)
    refine ⟨_, heqPos, ?_, rfl, rfl, rfl, ?_, ?_⟩
    · -- the invariant with the new head first
      have hIw2 : InvWith { s' with head := (([s.next_addr] ++ (a0 :: rest))).head? }
          ([s.next_addr] ++ (a0 :: rest)) := InvWith_rehead (by simpa using hIw)
      have hrw : { s' with head := (([s.next_addr] ++ (a0 :: rest))).head? } =
          { heap := spliceHeap (create_stop s nm pa d t).2.heap
              ((a0 :: rest).getLastD 0) s.next_addr a0,
            head := some s.next_addr,
            next_id := s.next_id + 1, next_addr := s.next_addr + 1 } := by
        rw [hs'X]
        rfl
      rw [hrw] at hIw2
      simpa using hIw2
    · have := h5
      rw [hs'X] at this
      exact this
    · intro x hx
      have := h6 x hx
      rw [hs'X] at this
      exact this

end BusRoute

namespace BusRoute

/-- `insert_at_position(create_stop(...), pos)` with `pos ≥ 2` on a
non-empty route: the walk stops at index `min (pos-2) (N-1)` from head and
the fresh node is spliced right after that stop. -/
theorem insertAtPositionNew_walk_spec {s : RState} {as : List Nat}
    (hI : InvWith s as) (nm : String) (pa : Int) (d t : Rat) (pos : Int)
    (hne : as ≠ []) (hpos : 2 ≤ pos) :
    ∃ s', insertAtPositionNew s nm pa d t pos = some s' ∧
      InvWith s'
        (as.take (min ((pos - 1).toNat - 1) (as.length - 1)) ++
          as.getD (min ((pos - 1).toNat - 1) (as.length - 1)) 0 ::
            s.next_addr :: as.drop (min ((pos - 1).toNat - 1) (as.length - 1) + 1)) ∧
      s'.head = s.head ∧
      s'.next_id = s.next_id + 1 ∧ s'.next_addr = s.next_addr + 1 ∧
      dataAt s'.heap s.next_addr =
        some (s.next_id, String.mk (nm.data.take 63), pa, d, t) ∧
      (∀ x, x ≠ s.next_addr → dataAt s'.heap x = dataAt s.heap x) := by
  obtain ⟨hkN, hasN, hperm, hhead, hseg, haddr, hid⟩ := hI
  have hlen1 : 1 ≤ as.length := by
    cases as with
    | nil => exact absurd rfl hne
    | cons a l => simp
  have hj : min ((pos - 1).toNat - 1) (as.length - 1) < as.length := by omega
  have hsplit := list_split_at hj
  have hbfresh : s.next_addr ∉ keys s.heap :=
    fun hmem => absurd (haddr _ hmem) (lt_irrefl _)
  have hbas : s.next_addr ∉ as := fun hmem => hbfresh (hperm.mem_iff.2 hmem)
  have hh : s.head = some (as.headD 0) := by rw [hhead, head?_eq_headD hne]
  have hch : (create_stop s nm pa d t).2.head = some (as.headD 0) := hh
  have hnxg : nexts (create_stop s nm pa d t).2.heap as (as.headD 0) := by
    refine nexts_frame (fun y hy => ?_) (nexts_of_seg hseg)
    have hc2 : (create_stop s nm pa d t).2.heap =
        (s.next_addr,
          (⟨s.next_id, String.mk (nm.data.take 63), pa, d, t, none, none⟩ : Node)) :: s.heap := rfl
    have hyb : ¬y = s.next_addr := fun hx => hbas (hx ▸ hy)
    rw [hc2, lookup_cons', if_neg hyb]
  · have htl : ∀ x ∈ as.tail, x ≠ as.headD 0 := by
      cases as with
      | nil => exact absurd rfl hne
      | cons a l =>
        intro x hx hxa
        rw [List.headD_cons] at hxa
        rw [List.nodup_cons] at hasN
        exact hasN.1 (hxa ▸ hx)
    have hfuel : as.length ≤ (create_stop s nm pa d t).2.heap.length + (pos - 1).toNat := by
      have hc2 : (create_stop s nm pa d t).2.heap.length = s.heap.length + 1 := rfl
      rw [hc2, heap_length_eq hperm]
      omega
    have hwalk := walkPos_spec (create_stop s nm pa d t).2.heap (as.headD 0) as
      ((create_stop s nm pa d t).2.heap.length + (pos - 1).toNat) 1 ((pos - 1).toNat)
      hne hnxg htl hfuel
    have hnp : ¬pos ≤ 1 := by omega
    have hunfold : insertAtPositionNew s nm pa d t pos =
        insertAfterNew s (some (as.getD (min ((pos - 1).toNat - 1) (as.length - 1)) 0)) nm pa d t := by
      show insert_at_position (create_stop s nm pa d t).2 (create_stop s nm pa d t).1 pos = _
      simp only [insert_at_position, hch, if_neg hnp, hwalk, Option.bind_eq_bind,
        Option.some_bind]
      rfl
    obtain ⟨s', heq, hIw, hh2, h3, h4, h5, h6⟩ := insertAfterNew_spec
      (⟨hkN, hasN, hperm, hhead, hseg, haddr, hid⟩ : InvWith s as) hsplit nm pa d t
    exact ⟨s', by rw [hunfold]; exact heq, hIw, hh2, h3, h4, h5, h6⟩

end BusRoute

namespace BusRoute

theorem headD_ne_nil {xs : List Nat} (hx : xs ≠ []) (d d' : Nat) :
    xs.headD d = xs.headD d' := by
  cases xs with
  | nil => exact absurd rfl hx
  | cons x xs => rfl

theorem id_of_mem_unlinkHeap {g : Heap} {p nx : Nat} {k : Nat} {w : Node}
    (hq : (k, w) ∈ unlinkHeap g p nx) : ∃ v, (k, v) ∈ g ∧ w.id = v.id := by
  obtain ⟨w1, hw1, hq1⟩ := mem_hupd hq
  obtain ⟨w2, hw2, hq2⟩ := mem_hupd hw1
  refine ⟨w2, hw2, ?_⟩
  have e1 : w.id = w1.id := by rcases hq1 with h | h <;> simp [h]
  have e2 : w1.id = w2.id := by rcases hq2 with h | h <;> simp [h]
  omega

/-- `delete_by_name` when the name resolves to the stop `tgt` sitting at
position `u.length` of the traversal order: `tgt` is unlinked and freed,
the route becomes `u ++ v`, and every other stop's payload (in particular
the predecessor's edge weights) is untouched. -/
theorem delete_found_spec {s : RState} {as u v : List Nat} {tgt : Nat} {nm : String}
    (hI : InvWith s as) (hsplit : as = u ++ tgt :: v)
    (hfind : find_by_name s nm = some (some tgt)) :
    ∃ s', delete_by_name s nm = some (true, s') ∧
      InvWith s' (u ++ v) ∧
      s'.next_id = s.next_id ∧ s'.next_addr = s.next_addr ∧
      (∀ x, x ≠ tgt → dataAt s'.heap x = dataAt s.heap x) ∧
      dataAt s'.heap tgt = none := by
  obtain ⟨hkN, hasN, hperm, hhead, hseg, haddr, hid⟩ := hI
  subst hsplit
  have hpermrot : (u ++ tgt :: v).Perm (tgt :: (v ++ u)) :=
    List.perm_middle.trans ((List.perm_append_comm).cons tgt)
  have hNrot : (tgt :: (v ++ u)).Nodup := hpermrot.nodup_iff.1 hasN
  have htgtw : tgt ∉ v ++ u := (List.nodup_cons.1 hNrot).1
  have hrot : cyc s.heap (tgt :: (v ++ u)) := by
    have h1 := (cyc_rotate s.heap u (tgt :: v)).1 hseg
    simpa using h1
  have hrotseg : seg s.heap ((tgt :: (v ++ u)).getLastD 0) (tgt :: (v ++ u)) tgt := by
    unfold cyc at hrot
    simpa using hrot
  obtain ⟨hpt, hnt, hsegw⟩ := (seg_cons_iff _ _ tgt tgt (v ++ u)).1 hrotseg
  obtain ⟨nd, hnd, hndp⟩ := lookup_of_optPrev hpt
  have hndn : nd.next = some ((v ++ u).headD tgt) := by
    have := lookup_of_optNext hnt
    obtain ⟨nd', hnd', hn'⟩ := this
    rw [hnd] at hnd'
    injection hnd' with h0
    rw [h0]
    exact hn'
  rcases hw : v ++ u with _ | ⟨w0, w'⟩
  · -- sole member: u = [] and v = []
    have hu : u = [] := by
      rcases List.append_eq_nil.1 hw with ⟨h1, h2⟩
      exact h2
    have hv : v = [] := by
      rcases List.append_eq_nil.1 hw with ⟨h1, h2⟩
      exact h1
    subst hu hv
    have hndn' : nd.next = some tgt := by rw [hndn]; rfl
    have hk1 : keys s.heap = [tgt] := by
      have h0 : (keys s.heap).Perm [tgt] := by simpa using hperm
      exact List.perm_singleton.1 h0
    have heap1 : s.heap = [(tgt, nd)] := by
      cases hh0 : s.heap with
      | nil => rw [hh0] at hk1; simp [keys] at hk1
      | cons q rest =>
        obtain ⟨k0, v0⟩ := q
        rw [hh0] at hk1
        simp only [keys, List.map_cons] at hk1
        injection hk1 with h1 h2
        have hrest : rest = [] := List.map_eq_nil_iff.1 h2
        subst hrest
        have hlk := hnd
        rw [hh0, lookup_cons', if_pos h1.symm] at hlk
        injection hlk with h0
        rw [h1, ← h0]
    have heq : delete_by_name s nm =
        some (true, { s with heap := eraseKey s.heap tgt, head := none }) := by
      simp only [delete_by_name, hfind, Option.bind_eq_bind, Option.some_bind, hnd, hndn']
      simp
    refine ⟨_, heq, ⟨?_, ?_, ?_, ?_, ?_, ?_, ?_⟩, rfl, rfl, ?_, ?_⟩
    · rw [heap1]
      simp [eraseKey, keys]
    · simp
    · rw [heap1]
      simp [eraseKey, keys]
    · rfl
    · rw [heap1]
      simp only [List.nil_append]
      exact seg_nil _ _ _
    · intro a ha
      rw [heap1] at ha
      simp [eraseKey, keys] at ha
    · intro q hq
      rw [heap1] at hq
      simp [eraseKey] at hq
    · intro x hx
      rw [dataAt, lookup_eraseKey, if_neg hx, heap1, lookup_cons', if_neg hx]
      rw [dataAt, lookup_cons', if_neg hx]
    · rw [dataAt, lookup_eraseKey, if_pos rfl]
      rfl
  · -- at least two members
    have hwne : v ++ u ≠ [] := by rw [hw]; simp
    have hnxt : nd.next = some ((v ++ u).headD 0) := by
      rw [hndn]
      rw [headD_ne_nil hwne tgt 0]
    have hprv : nd.prev = some ((v ++ u).getLastD 0) := by
      rw [hndp, getLastD_cons', getLastD_ne_nil hwne tgt 0]
    have hnxtmem : (v ++ u).headD 0 ∈ v ++ u := headD_mem hwne 0
    have hnxttgt : ¬(v ++ u).headD 0 = tgt := fun hx => htgtw (hx ▸ hnxtmem)
    have heq : delete_by_name s nm =
        some (true, { s with
          heap := eraseKey (unlinkHeap s.heap ((v ++ u).getLastD 0) ((v ++ u).headD 0)) tgt,
          head := if s.head = some tgt then some ((v ++ u).headD 0) else s.head }) := by
      simp only [delete_by_name, hfind, Option.bind_eq_bind, Option.some_bind, hnd, hnxt,
        if_neg hnxttgt, hprv, unlinkHeap]
    have hcyc' := cyc_behead hNrot hwne hrot
    refine ⟨_, heq, ⟨?_, ?_, ?_, ?_, ?_, ?_, ?_⟩, rfl, rfl, ?_, ?_⟩
    · -- keys nodup
      rw [keys_eraseKey, keys_unlinkHeap]
      exact hkN.filter _
    · have h1 : (v ++ u).Nodup := (List.nodup_cons.1 hNrot).2
      exact List.perm_append_comm.nodup_iff.2 h1
    · -- keys ~ u ++ v
      rw [keys_eraseKey, keys_unlinkHeap]
      have h1 : (keys s.heap).Perm (u ++ tgt :: v) := hperm
      have h2 := h1.filter (fun k => decide (k ≠ tgt))
      refine h2.trans ?_
      have h3 : (u ++ tgt :: v).filter (fun k => decide (k ≠ tgt)) = u ++ v := by
        rw [List.filter_append, List.filter_cons]
        have htu : tgt ∉ u := by
          rw [List.nodup_append] at hasN
          exact fun hx => hasN.2.2 hx (List.mem_cons_self tgt v)
        have htv : tgt ∉ v := by
          rw [List.nodup_append] at hasN
          exact (List.nodup_cons.1 hasN.2.1).1
        have hfu : u.filter (fun k => decide (k ≠ tgt)) = u :=
          List.filter_eq_self.2 fun a ha => by
            have hat : a ≠ tgt := fun hx => htu (hx ▸ ha)
            simpa using hat
        have hfv : v.filter (fun k => decide (k ≠ tgt)) = v :=
          List.filter_eq_self.2 fun a ha => by
            have hat : a ≠ tgt := fun hx => htv (hx ▸ ha)
            simpa using hat
        rw [hfu, hfv, if_neg (by simp)]
      rw [h3]
    · -- head
      rcases hu : u with _ | ⟨u0, u'⟩
      · have hsh : s.head = some tgt := by rw [hhead, hu]; rfl
        rw [if_pos hsh]
        have hvne : v ≠ [] := by
          rw [hu] at hwne
          simpa using hwne
        show some ((v ++ []).headD 0) = ([] ++ v).head?
        rw [List.append_nil, List.nil_append, head?_eq_headD hvne]
      · have hu0t : u0 ≠ tgt := by
          rw [hu] at hasN
          rw [List.nodup_append] at hasN
          exact fun hx => hasN.2.2 (List.mem_cons_self u0 u') (hx ▸ List.mem_cons_self tgt v)
        have hsh : s.head = some u0 := by rw [hhead, hu]; rfl
        rw [if_neg (by rw [hsh]; simp [hu0t]), hsh]
        rfl
    · -- cyc
      have h1 := (cyc_rotate _ v u).1 hcyc'
      exact h1
    · -- address bounds
      intro a ha
      rw [keys_eraseKey, keys_unlinkHeap] at ha
      exact haddr a (List.mem_of_mem_filter ha)
    · -- id bounds
      intro q hq
      obtain ⟨k, w⟩ := q
      have hq1 : (k, w) ∈ unlinkHeap s.heap ((v ++ u).getLastD 0) ((v ++ u).headD 0) :=
        List.mem_of_mem_filter hq
      obtain ⟨v0, hv0, hidq⟩ := id_of_mem_unlinkHeap hq1
      have h5 := hid (k, v0) hv0
      simp only at h5 ⊢
      omega
    · -- payload frame
      intro x hx
      rw [dataAt, lookup_eraseKey, if_neg hx, ← dataAt]
      show (List.lookup x (unlinkHeap _ _ _)).map Node.data = _
      rw [lookup_map_data_unlinkHeap]
      rfl
    · rw [dataAt, lookup_eraseKey, if_pos rfl]
      rfl

end BusRoute

namespace BusRoute

/-- `delete_by_name` when the search misses: it returns `false` and the state
is untouched. -/
theorem delete_not_found {s : RState} {nm : String}
    (h : find_by_name s nm = some none) :
    delete_by_name s nm = some (false, s) := by
  simp only [delete_by_name, h, Option.bind_eq_bind, Option.some_bind]

/-- `clear_route` under the invariant: the whole heap is freed and `head` is
cleared, leaving only the counters. -/
theorem clear_route_spec {s : RState} {as : List Nat} (hI : InvWith s as) :
    clear_route s =
      some { heap := [], head := none, next_id := s.next_id, next_addr := s.next_addr } := by
  obtain ⟨hkN, hasN, hperm, hhead, hseg, haddr, hid⟩ := hI
  cases has : as with
  | nil =>
    have hheap : s.heap = [] := by
      have hk : keys s.heap = [] := by
        rw [has] at hperm
        exact List.Perm.eq_nil hperm
      cases hh : s.heap with
      | nil => rfl
      | cons q r => rw [hh] at hk; simp [keys] at hk
    have hhd : s.head = none := by rw [hhead, has]; rfl
    rw [clear_route, hhd]
    cases s with
    | mk heap head nid nad =>
      simp only at hheap hhd
      simp [hheap, hhd]
  | cons a as' =>
    have hhd : s.head = some a := by rw [hhead, has]; rfl
    have htrav : travFrom s.heap a s.heap.length a = some as := by
      have h1 : travList s = some as := travList_spec ⟨hkN, hasN, hperm, hhead, hseg, haddr, hid⟩
      rw [travList, hhd] at h1
      exact h1
    have hfil : s.heap.filter (fun q => decide (q.1 ∉ as)) = [] := by
      rw [List.filter_eq_nil_iff]
      intro q hq
      have hk : q.1 ∈ keys s.heap := List.mem_map_of_mem Prod.fst hq
      have hin : q.1 ∈ as := hperm.mem_iff.1 hk
      simp [hin]
    rw [clear_route, hhd]
    rw [has] at htrav
    simp only [htrav, Option.bind_eq_bind, Option.some_bind]
    rw [← has, hfil]

end BusRoute

namespace BusRoute

/-! ### Persistence layer: the text file format

A file is a `List Char`; an `Option (List Char)` models the result of
`fopen` (`none` = the file cannot be opened). `%d` / `%.6f` printing and
`sscanf` parsing are modelled character-exactly. -/

/-- Decimal digit characters of `n`, most significant first (accumulator
form of the `%d` conversion). -/
def natDigitsAux (n : Nat) (acc : List Char) : List Char :=
  if h : n = 0 then acc
  else natDigitsAux (n / 10) (Char.ofNat (48 + n % 10) :: acc)
termination_by n
decreasing_by exact Nat.div_lt_self (Nat.pos_of_ne_zero h) (by norm_num)

/-- `printf("%d", n)` for a non-negative value. -/
def natDigits (n : Nat) : List Char :=
  if n = 0 then ['0'] else natDigitsAux n []

/-- `printf("%d", z)` for a signed value. -/
def intChars (z : Int) : List Char :=
  if z < 0 then '-' :: natDigits (-z).toNat else natDigits z.toNat

/-- Value of a digit string (the reading direction of `%d`). -/
def digitsToNat (ds : List Char) : Nat :=
  ds.foldl (fun a c => a * 10 + (c.toNat - 48)) 0

/-- The fractional digits of `%.6f`: exactly six digits, zero padded. -/
def pad6 (m : Nat) : List Char :=
  List.replicate (6 - (natDigits m).length) '0' ++ natDigits m

/-- `printf("%.6f", q)`: the double is rounded to six decimal places
(nearest, as `round`) and printed with exactly six fractional digits. -/
def format6 (q : Rat) : List Char :=
  let n : Nat := (round (|q| * 1000000) : Int).toNat
  (if q < 0 then ['-'] else []) ++
    natDigits (n / 1000000) ++ '.' :: pad6 (n % 1000000)

/-- One CSV row as written by `save_to_file`:
`"%d,%s,%d,%.6f,%.6f\n"`. -/
def saveRow (p : Nat × String × Int × Rat × Rat) : List Char :=
  natDigits p.1 ++ ',' :: p.2.1.data ++ ',' :: intChars p.2.2.1 ++
    ',' :: format6 p.2.2.2.1 ++ ',' :: format6 p.2.2.2.2 ++ ['\n']

/-- The header row written by `save_to_file`. -/
def headerChars : List Char :=
  ("id,name,passengers,dist_to_next,time_to_next\n").data

/-- Concatenation of the data rows. -/
def rowsChars : List (Nat × String × Int × Rat × Rat) → List Char
  | [] => []
  | r :: rs => saveRow r ++ rowsChars rs

/-- Collect the payloads of the stops along the traversal. -/
def collectData (h : Heap) : List Nat → Option (List (Nat × String × Int × Rat × Rat))
  | [] => some []
  | a :: as => do
    let p ← dataAt h a
    let ps ← collectData h as
    some (p :: ps)

/-- `save_to_file`: fails without touching anything if the route is empty
or the destination cannot be opened; otherwise writes the header followed
by one row per stop in traversal order. -/
def save_to_file (s : RState) (canOpen : Bool) : Option (Bool × Option (List Char)) :=
  match s.head with
  | none => some (false, none)
  | some _ =>
    if canOpen then do
      let as ← travList s
      let rows ← collectData s.heap as
      some (true, some (headerChars ++ rowsChars rows))
    else some (false, none)

/-- `isspace` of the C locale used by `scanf`'s whitespace skipping. -/
def isSpaceC (c : Char) : Bool :=
  c = ' ' || c = '\t' || c = '\n' || c = '\r' || c = '\x0b' || c = '\x0c'

/-- Leading-whitespace skip performed by `%d` and `%lf`. -/
def skipWs (cs : List Char) : List Char := cs.dropWhile isSpaceC

/-- Optional sign: returns (negative?, rest). -/
def parseSign : List Char → Bool × List Char
  | [] => (false, [])
  | c :: cs =>
    if c = '-' then (true, cs)
    else if c = '+' then (false, cs)
    else (false, c :: cs)

/-- Longest digit prefix and the remainder. -/
def spanDigits : List Char → List Char × List Char
  | [] => ([], [])
  | c :: cs =>
    if c.isDigit then
      let p := spanDigits cs
      (c :: p.1, p.2)
    else ([], c :: cs)

/-- The `%d` conversion: whitespace, optional sign, at least one digit. -/
def parseIntC (cs : List Char) : Option (Int × List Char) :=
  let cs1 := skipWs cs
  let sp := parseSign cs1
  let dp := spanDigits sp.2
  if dp.1.isEmpty then none
  else some ((if sp.1 then -(digitsToNat dp.1 : Int) else (digitsToNat dp.1 : Int)), dp.2)

/-- The `%lf` conversion (`strtod` grammar without hex/inf/nan):
whitespace, optional sign, digits with an optional fractional part (at
least one digit overall), optional well-formed exponent. -/
def parseFloatC (cs : List Char) : Option (Rat × List Char) :=
  let cs1 := skipWs cs
  let sp := parseSign cs1
  let ipp := spanDigits sp.2
  let hasDot : Bool := match ipp.2 with | c :: _ => decide (c = '.') | [] => false
  let fpp := if hasDot then spanDigits ipp.2.tail else ([], ipp.2)
  if ipp.1.isEmpty && fpp.1.isEmpty then none
  else
    let mant : Rat := (digitsToNat (ipp.1 ++ fpp.1) : Rat) / (10 : Rat) ^ fpp.1.length
    let exr : Int × List Char :=
      match fpp.2 with
      | c :: cs2 =>
        if c = 'e' ∨ c = 'E' then
          let esp := parseSign cs2
          let eds := spanDigits esp.2
          if eds.1.isEmpty then (0, fpp.2)
          else ((if esp.1 then -(digitsToNat eds.1 : Int) else (digitsToNat eds.1 : Int)), eds.2)
        else (0, fpp.2)
      | [] => (0, fpp.2)
    some ((if sp.1 then -(mant * (10 : Rat) ^ exr.1) else mant * (10 : Rat) ^ exr.1), exr.2)

/-- The `%63[^,]` scanset: up to 63 characters other than `,`, at least
one required, no whitespace skipping. -/
def scan63 (cs : List Char) : Option (List Char × List Char) :=
  let tk0 := cs.takeWhile (fun c => decide (c ≠ ','))
  let rst := cs.dropWhile (fun c => decide (c ≠ ','))
  let tk := tk0.take 63
  if tk.isEmpty then none else some (tk, tk0.drop 63 ++ rst)

/-- A literal character directive of the `sscanf` format string. -/
def expectC (c : Char) : List Char → Option (List Char)
  | c' :: cs => if c' = c then some cs else none
  | [] => none

/-- `sscanf(line, "%*d,%63[^,],%d,%lf,%lf", ...) >= 4`: the accepted rows
together with the four converted fields. -/
def parseRow (cs : List Char) : Option (String × Int × Rat × Rat) := do
  let p1 ← parseIntC cs
  let r1 ← expectC ',' p1.2
  let p2 ← scan63 r1
  let r2 ← expectC ',' p2.2
  let p3 ← parseIntC r2
  let r3 ← expectC ',' p3.2
  let p4 ← parseFloatC r3
  let r4 ← expectC ',' p4.2
  let p5 ← parseFloatC r4
  some (String.mk p2.1, p3.1, p4.1, p5.1)

/-- One step of `fgets(line, 256, f)` on remaining content: read at most
`n` characters, stopping after a newline; returns (line, rest). -/
def fgetsSplit : Nat → List Char → List Char × List Char
  | 0, rest => ([], rest)
  | _ + 1, [] => ([], [])
  | n + 1, c :: cs =>
    if c = '\n' then ([c], cs)
    else
      let p := fgetsSplit n cs
      (c :: p.1, p.2)

/-- `fgets` with a 256-byte buffer: `none` at end of file, otherwise the
next line (at most 255 characters, newline included). -/
def fgets (content : List Char) : Option (List Char × List Char) :=
  match content with
  | [] => none
  | _ => some (fgetsSplit 255 content)

/-- The `while (fgets(...))` body of `load_from_file`: parse each line,
silently skipping rows `sscanf` rejects, appending accepted rows via
`create_stop` + `insert_end`. -/
def loadLoop (s : RState) : Nat → List Char → Option RState
  | 0, _ => none
  | fuel + 1, content =>
    match fgets content with
    | none => some s
    | some lr =>
      match parseRow lr.1 with
      | none => loadLoop s fuel lr.2
      | some r => do
        let s' ← insertEndNew s r.1 r.2.1 r.2.2.1 r.2.2.2
        loadLoop s' fuel lr.2

/-- `load_from_file`: if `fopen` fails return 0 with the route untouched;
otherwise clear the route, read (and discard) the header line — returning
0 if there is none — then run the row loop and return 1. -/
def load_from_file (s : RState) (file : Option (List Char)) : Option (Bool × RState) :=
  match file with
  | none => some (false, s)
  | some content => do
    let s0 ← clear_route s
    match fgets content with
    | none => some (false, s0)
    | some hr => do
      let s1 ← loadLoop s0 (hr.2.length + 1) hr.2
      some (true, s1)

/-- The successive lines `fgets` cuts a content into. -/
def linesF : Nat → List Char → List (List Char)
  | 0, _ => []
  | fuel + 1, content =>
    match fgets content with
    | none => []
    | some lr => lr.1 :: linesF fuel lr.2

/-- All lines of a content. -/
def linesOf (content : List Char) : List (List Char) :=
  linesF (content.length + 1) content

/-- The rows of a (post-header) content that `sscanf` accepts. -/
def goodRows (content : List Char) : List (String × Int × Rat × Rat) :=
  (linesOf content).filterMap parseRow

/-- The association of fresh ids to loaded rows: what `dataAt` must give
on the freshly allocated addresses after a load. -/
def loadedData : Nat → List (String × Int × Rat × Rat) → List (Option (Nat × String × Int × Rat × Rat))
  | _, [] => []
  | nid, r :: rs =>
    some (nid, String.mk (r.1.data.take 63), r.2.1, r.2.2.1, r.2.2.2) :: loadedData (nid + 1) rs

end BusRoute

namespace BusRoute

theorem natDigitsAux_zero (acc : List Char) : natDigitsAux 0 acc = acc := by
  rw [natDigitsAux]
  simp

theorem natDigitsAux_pos {n : Nat} (h : n ≠ 0) (acc : List Char) :
    natDigitsAux n acc = natDigitsAux (n / 10) (Char.ofNat (48 + n % 10) :: acc) := by
  rw [natDigitsAux]
  rw [dif_neg h]

theorem natDigitsAux_acc (n : Nat) : ∀ acc, natDigitsAux n acc = natDigitsAux n [] ++ acc := by
  induction n using Nat.strong_induction_on with
  | _ n ih =>
    intro acc
    by_cases h : n = 0
    · subst h
      rw [natDigitsAux_zero, natDigitsAux_zero]
      rfl
    · rw [natDigitsAux_pos h, natDigitsAux_pos h,
        ih (n / 10) (Nat.div_lt_self (Nat.pos_of_ne_zero h) (by norm_num)) (Char.ofNat (48 + n % 10) :: acc),
        ih (n / 10) (Nat.div_lt_self (Nat.pos_of_ne_zero h) (by norm_num)) [Char.ofNat (48 + n % 10)]]
      simp

theorem digitsToNat_nil : digitsToNat [] = 0 := rfl

theorem digitsToNat_shift (ds : List Char) :
    ∀ a : Nat, ds.foldl (fun x c => x * 10 + (c.toNat - 48)) a =
      a * 10 ^ ds.length + digitsToNat ds := by
  induction ds with
  | nil => intro a; simp [digitsToNat]
  | cons c ds ih =>
    intro a
    rw [List.foldl_cons, ih]
    have h2 : digitsToNat (c :: ds) = (c.toNat - 48) * 10 ^ ds.length + digitsToNat ds := by
      rw [digitsToNat, List.foldl_cons, ih]
      simp
    rw [h2]
    simp [List.length_cons, pow_succ]
    ring

theorem digitsToNat_cons (c : Char) (ds : List Char) :
    digitsToNat (c :: ds) = (c.toNat - 48) * 10 ^ ds.length + digitsToNat ds := by
  rw [digitsToNat, List.foldl_cons, digitsToNat_shift]
  simp

theorem digitsToNat_append (xs ys : List Char) :
    digitsToNat (xs ++ ys) = digitsToNat xs * 10 ^ ys.length + digitsToNat ys := by
  rw [digitsToNat, List.foldl_append, digitsToNat_shift]
  rfl

theorem digit_char_facts : ∀ m, m < 10 →
    (Char.ofNat (48 + m)).toNat = 48 + m ∧ (Char.ofNat (48 + m)).isDigit = true := by
  decide

theorem digitsToNat_natDigitsAux (n : Nat) : digitsToNat (natDigitsAux n []) = n := by
  induction n using Nat.strong_induction_on with
  | _ n ih =>
    by_cases h : n = 0
    · subst h
      rw [natDigitsAux_zero]
      rfl
    · rw [natDigitsAux_pos h, natDigitsAux_acc, digitsToNat_append,
        ih (n / 10) (Nat.div_lt_self (Nat.pos_of_ne_zero h) (by norm_num))]
      have hd := (digit_char_facts (n % 10) (Nat.mod_lt n (by norm_num))).1
      rw [digitsToNat_cons, digitsToNat_nil, hd]
      simp
      omega

theorem digitsToNat_natDigits (n : Nat) : digitsToNat (natDigits n) = n := by
  rw [natDigits]
  by_cases h : n = 0
  · subst h
    decide
  · rw [if_neg h]
    exact digitsToNat_natDigitsAux n

theorem natDigitsAux_digits (n : Nat) :
    ∀ acc, (∀ c ∈ acc, c.isDigit = true) → ∀ c ∈ natDigitsAux n acc, c.isDigit = true := by
  induction n using Nat.strong_induction_on with
  | _ n ih =>
    intro acc hacc c hc
    by_cases h : n = 0
    · subst h
      rw [natDigitsAux_zero] at hc
      exact hacc c hc
    · rw [natDigitsAux_pos h] at hc
      refine ih (n / 10) (Nat.div_lt_self (Nat.pos_of_ne_zero h) (by norm_num)) _ ?_ c hc
      intro c' hc'
      rcases List.mem_cons.1 hc' with h1 | h1
      · rw [h1]
        exact (digit_char_facts (n % 10) (Nat.mod_lt n (by norm_num))).2
      · exact hacc c' h1

theorem natDigits_digits (n : Nat) : ∀ c ∈ natDigits n, c.isDigit = true := by
  intro c hc
  rw [natDigits] at hc
  by_cases h : n = 0
  · rw [if_pos h] at hc
    simp at hc
    rw [hc]
    decide
  · rw [if_neg h] at hc
    exact natDigitsAux_digits n [] (by simp) c hc

theorem natDigits_ne_nil (n : Nat) : natDigits n ≠ [] := by
  rw [natDigits]
  by_cases h : n = 0
  · rw [if_pos h]
    simp
  · rw [if_neg h, natDigitsAux_pos h, natDigitsAux_acc]
    simp

theorem natDigitsAux_length (n : Nat) : ∀ k, n < 10 ^ k → (natDigitsAux n []).length ≤ k := by
  induction n using Nat.strong_induction_on with
  | _ n ih =>
    intro k hk
    by_cases h : n = 0
    · subst h
      rw [natDigitsAux_zero]
      simp
    · rw [natDigitsAux_pos h, natDigitsAux_acc]
      have hk1 : k ≠ 0 := by
        rintro rfl
        rw [pow_zero] at hk
        omega
      obtain ⟨k', rfl⟩ : ∃ k', k = k' + 1 := ⟨k - 1, by omega⟩
      have h10 : n / 10 < 10 ^ k' := by
        rw [pow_succ] at hk
        omega
      have hlen := ih (n / 10) (Nat.div_lt_self (Nat.pos_of_ne_zero h) (by norm_num)) k' h10
      simp [List.length_append]
      omega

theorem natDigits_length_le {n k : Nat} (hn : n < 10 ^ k) (hk : 1 ≤ k) :
    (natDigits n).length ≤ k := by
  rw [natDigits]
  by_cases h : n = 0
  · rw [if_pos h]
    simpa using hk
  · rw [if_neg h]
    exact natDigitsAux_length n k hn

theorem digitsToNat_replicate_zero (j : Nat) :
    digitsToNat (List.replicate j '0') = 0 := by
  induction j with
  | zero => rfl
  | succ j ih =>
    rw [List.replicate_succ, digitsToNat_cons, ih]
    have h0 : '0'.toNat = 48 := rfl
    rw [h0]
    simp

theorem pad6_length {m : Nat} (hm : m < 1000000) : (pad6 m).length = 6 := by
  rw [pad6]
  have h1 : (natDigits m).length ≤ 6 :=
    natDigits_length_le (hm.trans_eq (by norm_num : (1000000 : Nat) = 10 ^ 6)) (by norm_num)
  simp [List.length_append, List.length_replicate]
  omega

theorem digitsToNat_pad6 (m : Nat) : digitsToNat (pad6 m) = m := by
  rw [pad6, digitsToNat_append, digitsToNat_replicate_zero, digitsToNat_natDigits]
  simp

theorem pad6_digits (m : Nat) : ∀ c ∈ pad6 m, c.isDigit = true := by
  intro c hc
  rw [pad6] at hc
  rcases List.mem_append.1 hc with h1 | h1
  · rw [List.eq_of_mem_replicate h1]
    decide
  · exact natDigits_digits m c h1

end BusRoute

namespace BusRoute

theorem digit_ne_char {c : Char} (h : c.isDigit = true) {c' : Char}
    (h' : c'.isDigit = false) : c ≠ c' := by
  intro heq
  rw [heq, h'] at h
  exact Bool.false_ne_true h

theorem isSpaceC_false_of_isDigit {c : Char} (h : c.isDigit = true) : isSpaceC c = false := by
  have h1 : c ≠ ' ' := digit_ne_char h (by decide)
  have h2 : c ≠ '\t' := digit_ne_char h (by decide)
  have h3 : c ≠ '\n' := digit_ne_char h (by decide)
  have h4 : c ≠ '\r' := digit_ne_char h (by decide)
  have h5 : c ≠ '\x0b' := digit_ne_char h (by decide)
  have h6 : c ≠ '\x0c' := digit_ne_char h (by decide)
  simp [isSpaceC, h1, h2, h3, h4, h5, h6]

theorem skipWs_cons_of_not {c : Char} {cs : List Char} (h : isSpaceC c = false) :
    skipWs (c :: cs) = c :: cs := by
  rw [skipWs, List.dropWhile_cons, h]
  simp

theorem parseSign_no {c : Char} {cs : List Char} (h1 : c ≠ '-') (h2 : c ≠ '+') :
    parseSign (c :: cs) = (false, c :: cs) := by
  rw [parseSign, if_neg h1, if_neg h2]

theorem parseSign_neg (cs : List Char) : parseSign ('-' :: cs) = (true, cs) := by
  rw [parseSign, if_pos rfl]

theorem spanDigits_cons_digit {c : Char} {cs : List Char} (h : c.isDigit = true) :
    spanDigits (c :: cs) = (c :: (spanDigits cs).1, (spanDigits cs).2) := by
  rw [spanDigits, if_pos h]

theorem spanDigits_cons_not {c : Char} {cs : List Char} (h : c.isDigit = false) :
    spanDigits (c :: cs) = ([], c :: cs) := by
  rw [spanDigits]
  rw [h]
  simp

theorem spanDigits_exact {ds rest : List Char} (hd : ∀ c ∈ ds, c.isDigit = true)
    (hr : ∀ c r, rest = c :: r → c.isDigit = false) :
    spanDigits (ds ++ rest) = (ds, rest) := by
  induction ds with
  | nil =>
    cases rest with
    | nil => rfl
    | cons c r =>
      simp only [List.nil_append]
      exact spanDigits_cons_not (hr c r rfl)
  | cons c ds ih =>
    rw [List.cons_append, spanDigits_cons_digit (hd c (List.mem_cons_self c ds)),
      ih (fun c' hc' => hd c' (List.mem_cons_of_mem c hc'))]

theorem takeWhile_exact {p : Char → Bool} {l rest : List Char}
    (hl : ∀ c ∈ l, p c = true) (hr : ∀ c r, rest = c :: r → p c = false) :
    (l ++ rest).takeWhile p = l ∧ (l ++ rest).dropWhile p = rest := by
  induction l with
  | nil =>
    cases rest with
    | nil => exact ⟨rfl, rfl⟩
    | cons c r =>
      simp only [List.nil_append, List.takeWhile_cons, List.dropWhile_cons, hr c r rfl]
      exact ⟨rfl, rfl⟩
  | cons c l ih =>
    obtain ⟨h1, h2⟩ := ih (fun c' hc' => hl c' (List.mem_cons_of_mem c hc'))
    rw [List.cons_append, List.takeWhile_cons, List.dropWhile_cons,
      hl c (List.mem_cons_self c l)]
    constructor
    · simp [h1]
    · simp [h2]

theorem expectC_cons_eq (c : Char) (cs : List Char) : expectC c (c :: cs) = some cs := by
  rw [expectC, if_pos rfl]

theorem scan63_exact {nm rest : List Char} (h1 : nm ≠ []) (h63 : nm.length ≤ 63)
    (hnc : ',' ∉ nm) :
    scan63 (nm ++ ',' :: rest) = some (nm, ',' :: rest) := by
  have hall : ∀ c ∈ nm, (fun c => decide (c ≠ ',')) c = true := by
    intro c hc
    simp only [decide_eq_true_eq]
    exact fun heq => hnc (heq ▸ hc)
  have hstop : ∀ c r, (',' :: rest : List Char) = c :: r → (fun c => decide (c ≠ ',')) c = false := by
    intro c r heq
    injection heq with hc _
    rw [← hc]
    simp
  obtain ⟨htk, hdr⟩ := takeWhile_exact hall hstop
  rw [scan63]
  simp only [htk, hdr]
  rw [List.take_of_length_le h63, List.drop_eq_nil_of_le h63]
  have hne : nm.isEmpty = false := by
    cases nm with
    | nil => exact absurd rfl h1
    | cons a l => rfl
  rw [hne]
  simp

theorem fgetsSplit_append : ∀ (n : Nat) (cs : List Char),
    (fgetsSplit n cs).1 ++ (fgetsSplit n cs).2 = cs := by
  intro n
  induction n with
  | zero => intro cs; rfl
  | succ n ih =>
    intro cs
    cases cs with
    | nil => rfl
    | cons c cs =>
      rw [fgetsSplit]
      by_cases h : c = '\n'
      · rw [if_pos h]
        simp [h]
      · rw [if_neg h]
        simp only [List.cons_append]
        rw [ih]

theorem fgetsSplit_fst_ne_nil {n : Nat} (hn : n ≠ 0) {c : Char} {cs : List Char} :
    (fgetsSplit n (c :: cs)).1 ≠ [] := by
  obtain ⟨m, rfl⟩ : ∃ m, n = m + 1 := ⟨n - 1, by omega⟩
  rw [fgetsSplit]
  by_cases h : c = '\n'
  · rw [if_pos h]
    simp
  · rw [if_neg h]
    simp

theorem fgets_none_iff {content : List Char} : fgets content = none ↔ content = [] := by
  cases content with
  | nil => simp [fgets]
  | cons c cs => simp [fgets]

theorem fgets_eq_some {c : Char} {cs : List Char} :
    fgets (c :: cs) = some (fgetsSplit 255 (c :: cs)) := rfl

theorem fgets_decompose {content l r : List Char} (h : fgets content = some (l, r)) :
    l ++ r = content ∧ r.length < content.length := by
  cases content with
  | nil => simp [fgets] at h
  | cons c cs =>
    rw [fgets_eq_some] at h
    injection h with h
    have h1 := fgetsSplit_append 255 (c :: cs)
    have h2 : (fgetsSplit 255 (c :: cs)).1 ≠ [] := fgetsSplit_fst_ne_nil (by norm_num)
    rw [h] at h1 h2
    refine ⟨h1, ?_⟩
    have h3 : l.length + r.length = (c :: cs).length := by
      rw [← h1, List.length_append]
    have h4 : l.length ≠ 0 := fun hx => h2 (List.eq_nil_of_length_eq_zero hx)
    omega

theorem fgetsSplit_line {l : List Char} : ∀ {n : Nat} (rest : List Char),
    l.length < n → '\n' ∉ l →
    fgetsSplit n (l ++ '\n' :: rest) = (l ++ ['\n'], rest) := by
  induction l with
  | nil =>
    intro n rest hn _
    obtain ⟨m, rfl⟩ : ∃ m, n = m + 1 := ⟨n - 1, by omega⟩
    rw [List.nil_append, fgetsSplit, if_pos rfl]
    rfl
  | cons c l ih =>
    intro n rest hn hnl
    obtain ⟨m, rfl⟩ : ∃ m, n = m + 1 := ⟨n - 1, by omega⟩
    have hc : c ≠ '\n' := fun hx => hnl (hx ▸ List.mem_cons_self c l)
    rw [List.cons_append, fgetsSplit, if_neg hc]
    have hm : l.length < m := by
      simp only [List.length_cons] at hn
      omega
    rw [ih rest hm (fun hx => hnl (List.mem_cons_of_mem c hx))]
    rfl

theorem fgets_line {l rest : List Char} (hlen : l.length < 255) (hn : '\n' ∉ l) :
    fgets (l ++ '\n' :: rest) = some (l ++ ['\n'], rest) := by
  cases l with
  | nil =>
    have h : fgetsSplit 255 ([] ++ '\n' :: rest) = ([] ++ ['\n'], rest) :=
      fgetsSplit_line rest (by norm_num) hn
    rw [List.nil_append] at h
    rw [List.nil_append, fgets_eq_some, h]
  | cons c l =>
    rw [List.cons_append, fgets_eq_some, ← List.cons_append,
      fgetsSplit_line rest hlen hn]

end BusRoute

namespace BusRoute

theorem natDigits_isEmpty (n : Nat) : (natDigits n).isEmpty = false := by
  cases h : natDigits n with
  | nil => exact absurd h (natDigits_ne_nil n)
  | cons a l => rfl

theorem natDigits_cons_shape (n : Nat) : ∃ c0 cs0,
    natDigits n = c0 :: cs0 ∧ c0.isDigit = true := by
  cases h : natDigits n with
  | nil => exact absurd h (natDigits_ne_nil n)
  | cons a l =>
    exact ⟨a, l, rfl, natDigits_digits n a (by rw [h]; exact List.mem_cons_self a l)⟩

theorem parseIntC_natDigits (n : Nat) {rest : List Char}
    (hr : ∀ c r, rest = c :: r → c.isDigit = false) :
    parseIntC (natDigits n ++ rest) = some ((n : Int), rest) := by
  obtain ⟨c0, cs0, hds, hc0⟩ := natDigits_cons_shape n
  have h1 : skipWs (natDigits n ++ rest) = natDigits n ++ rest := by
    rw [hds]
    exact skipWs_cons_of_not (isSpaceC_false_of_isDigit hc0)
  have h2 : parseSign (natDigits n ++ rest) = (false, natDigits n ++ rest) := by
    rw [hds]
    exact parseSign_no (digit_ne_char hc0 (by decide)) (digit_ne_char hc0 (by decide))
  have h3 : spanDigits (natDigits n ++ rest) = (natDigits n, rest) :=
    spanDigits_exact (natDigits_digits n) hr
  simp only [parseIntC, h1, h2, h3, natDigits_isEmpty, digitsToNat_natDigits]
  simp

end BusRoute

namespace BusRoute

theorem parseIntC_intChars (z : Int) {rest : List Char}
    (hr : ∀ c r, rest = c :: r → c.isDigit = false) :
    parseIntC (intChars z ++ rest) = some (z, rest) := by
  by_cases hz : z < 0
  · rw [intChars, if_pos hz, List.cons_append]
    have h1 : skipWs ('-' :: (natDigits (-z).toNat ++ rest)) =
        '-' :: (natDigits (-z).toNat ++ rest) :=
      skipWs_cons_of_not (by decide)
    have h2 := parseSign_neg (natDigits (-z).toNat ++ rest)
    have h3 : spanDigits (natDigits (-z).toNat ++ rest) = (natDigits (-z).toNat, rest) :=
      spanDigits_exact (natDigits_digits _) hr
    simp only [parseIntC, h1, h2, h3, natDigits_isEmpty, digitsToNat_natDigits]
    simp
    omega
  · rw [intChars, if_neg hz, parseIntC_natDigits z.toNat hr]
    have hcast : ((z.toNat : Int)) = z := by omega
    rw [hcast]

theorem format6_natDiv (n : Nat) :
    format6 ((n : Rat) / 1000000) = natDigits (n / 1000000) ++ '.' :: pad6 (n % 1000000) := by
  have h0 : (0 : Rat) ≤ (n : Rat) / 1000000 := by positivity
  have habs : |(n : Rat) / 1000000| = (n : Rat) / 1000000 := abs_of_nonneg h0
  have hmul : ((n : Rat) / 1000000) * 1000000 = (n : Rat) := by field_simp
  have hround : round ((n : Rat)) = (n : Int) := round_natCast n
  simp only [format6, habs, hmul, hround, Int.toNat_natCast, if_neg (not_lt.2 h0)]
  simp

end BusRoute


namespace BusRoute

theorem parseFloatC_fmt (n : Nat) {rest : List Char}
    (hr : ∀ c r, rest = c :: r → c.isDigit = false ∧ c ≠ '.' ∧ c ≠ 'e' ∧ c ≠ 'E') :
    parseFloatC ((natDigits (n / 1000000) ++ '.' :: pad6 (n % 1000000)) ++ rest) =
      some ((n : Rat) / 1000000, rest) := by
  obtain ⟨c0, cs0, hds, hc0⟩ := natDigits_cons_shape (n / 1000000)
  have hassoc : (natDigits (n / 1000000) ++ '.' :: pad6 (n % 1000000)) ++ rest =
      natDigits (n / 1000000) ++ '.' :: (pad6 (n % 1000000) ++ rest) := by
    simp
  rw [hassoc]
  have h1 : skipWs (natDigits (n / 1000000) ++ '.' :: (pad6 (n % 1000000) ++ rest)) =
      natDigits (n / 1000000) ++ '.' :: (pad6 (n % 1000000) ++ rest) := by
    rw [hds]
    exact skipWs_cons_of_not (isSpaceC_false_of_isDigit hc0)
  have h2 : parseSign (natDigits (n / 1000000) ++ '.' :: (pad6 (n % 1000000) ++ rest)) =
      (false, natDigits (n / 1000000) ++ '.' :: (pad6 (n % 1000000) ++ rest)) := by
    rw [hds]
    exact parseSign_no (digit_ne_char hc0 (by decide)) (digit_ne_char hc0 (by decide))
  have h3 : spanDigits (natDigits (n / 1000000) ++ '.' :: (pad6 (n % 1000000) ++ rest)) =
      (natDigits (n / 1000000), '.' :: (pad6 (n % 1000000) ++ rest)) :=
    spanDigits_exact (natDigits_digits _) (by
      intro c r heq
      injection heq with hc _
      rw [← hc]
      decide)
  have h5 : spanDigits (pad6 (n % 1000000) ++ rest) = (pad6 (n % 1000000), rest) :=
    spanDigits_exact (pad6_digits _) (fun c r heq => (hr c r heq).1)
  have hmod : n % 1000000 < 1000000 := Nat.mod_lt n (by norm_num)
  have hlen : (pad6 (n % 1000000)).length = 6 := pad6_length hmod
  have hval : digitsToNat (natDigits (n / 1000000) ++ pad6 (n % 1000000)) = n := by
    rw [digitsToNat_append, digitsToNat_natDigits, digitsToNat_pad6, hlen]
    have h10 : (10 : Nat) ^ 6 = 1000000 := by norm_num
    rw [h10]
    omega
  simp only [parseFloatC, h1, h2, h3, h5, natDigits_isEmpty, hval, hlen]
  cases rest with
  | nil =>
    simp only [List.append_nil] at h5
    simp [h5, hval, hlen]
    norm_num
  | cons c r =>
    obtain ⟨hcd, hcdot, he, hE⟩ := hr c r rfl
    simp [h5, hval, hlen, he, hE]
    norm_num

end BusRoute

namespace BusRoute

theorem parseFloatC_format6 {q : Rat} (hq0 : 0 ≤ q) {n : Nat}
    (hqn : q * 1000000 = (n : Rat)) {rest : List Char}
    (hr : ∀ c r, rest = c :: r → c.isDigit = false ∧ c ≠ '.' ∧ c ≠ 'e' ∧ c ≠ 'E') :
    parseFloatC (format6 q ++ rest) = some (q, rest) := by
  have hq : q = (n : Rat) / 1000000 := by
    rw [eq_div_iff (by norm_num : (1000000 : Rat) ≠ 0)]
    exact hqn
  rw [hq, format6_natDiv, parseFloatC_fmt n hr]

theorem comma_head_digit : ∀ (r : List Char) (c : Char) (r' : List Char),
    (',' :: r : List Char) = c :: r' → c.isDigit = false := by
  intro r c r' heq
  injection heq with hc _
  rw [← hc]
  decide

theorem comma_head_float : ∀ (r : List Char) (c : Char) (r' : List Char),
    (',' :: r : List Char) = c :: r' →
    c.isDigit = false ∧ c ≠ '.' ∧ c ≠ 'e' ∧ c ≠ 'E' := by
  intro r c r' heq
  injection heq with hc _
  rw [← hc]
  refine ⟨by decide, by decide, by decide, by decide⟩

theorem newline_head_float : ∀ (c : Char) (r' : List Char),
    (['\n'] : List Char) = c :: r' →
    c.isDigit = false ∧ c ≠ '.' ∧ c ≠ 'e' ∧ c ≠ 'E' := by
  intro c r' heq
  injection heq with hc _
  rw [← hc]
  refine ⟨by decide, by decide, by decide, by decide⟩

theorem parseRow_saveRow {idn : Nat} {nm : String} {pa : Int} {d t : Rat}
    (hne : nm.data ≠ []) (h63 : nm.data.length ≤ 63) (hnc : ',' ∉ nm.data)
    {nd : Nat} (hd0 : 0 ≤ d) (hdn : d * 1000000 = (nd : Rat))
    {nt : Nat} (ht0 : 0 ≤ t) (htn : t * 1000000 = (nt : Rat)) :
    parseRow (saveRow (idn, nm, pa, d, t)) = some (nm, pa, d, t) := by
  have hsr : saveRow (idn, nm, pa, d, t) =
      natDigits idn ++ ',' :: (nm.data ++ ',' :: (intChars pa ++
        ',' :: (format6 d ++ ',' :: (format6 t ++ ['\n'])))) := by
    simp [saveRow]
  have h1 : parseIntC (natDigits idn ++ ',' :: (nm.data ++ ',' :: (intChars pa ++
      ',' :: (format6 d ++ ',' :: (format6 t ++ ['\n']))))) =
      some ((idn : Int), ',' :: (nm.data ++ ',' :: (intChars pa ++
      ',' :: (format6 d ++ ',' :: (format6 t ++ ['\n']))))) :=
    parseIntC_natDigits idn (comma_head_digit _)
  have h2 : scan63 (nm.data ++ ',' :: (intChars pa ++
      ',' :: (format6 d ++ ',' :: (format6 t ++ ['\n'])))) =
      some (nm.data, ',' :: (intChars pa ++
      ',' :: (format6 d ++ ',' :: (format6 t ++ ['\n'])))) :=
    scan63_exact hne h63 hnc
  have h3 : parseIntC (intChars pa ++ ',' :: (format6 d ++ ',' :: (format6 t ++ ['\n']))) =
      some (pa, ',' :: (format6 d ++ ',' :: (format6 t ++ ['\n']))) :=
    parseIntC_intChars pa (comma_head_digit _)
  have h4 : parseFloatC (format6 d ++ ',' :: (format6 t ++ ['\n'])) =
      some (d, ',' :: (format6 t ++ ['\n'])) :=
    parseFloatC_format6 hd0 hdn (comma_head_float _)
  have h5 : parseFloatC (format6 t ++ ['\n']) = some (t, ['\n']) :=
    parseFloatC_format6 ht0 htn newline_head_float
  have hmk : String.mk nm.data = nm := by
    cases nm
    rfl
  rw [hsr]
  simp only [parseRow, h1, Option.bind_eq_bind, Option.some_bind, expectC_cons_eq,
    h2, h3, h4, h5, hmk]

end BusRoute

namespace BusRoute

theorem intChars_mem {z : Int} {c : Char} (hc : c ∈ intChars z) :
    c = '-' ∨ c.isDigit = true := by
  rw [intChars] at hc
  by_cases hz : z < 0
  · rw [if_pos hz] at hc
    rcases List.mem_cons.1 hc with h | h
    · exact Or.inl h
    · exact Or.inr (natDigits_digits _ c h)
  · rw [if_neg hz] at hc
    exact Or.inr (natDigits_digits _ c hc)

theorem pad6_mem {m : Nat} {c : Char} (hc : c ∈ pad6 m) : c.isDigit = true :=
  pad6_digits m c hc

theorem format6_mem {q : Rat} {c : Char} (hc : c ∈ format6 q) :
    c = '-' ∨ c = '.' ∨ c.isDigit = true := by
  rw [format6] at hc
  simp only [List.mem_append, List.mem_cons] at hc
  rcases hc with (h | h) | h | h
  · by_cases hq : q < 0
    · rw [if_pos hq] at h
      simp at h
      exact Or.inl h
    · rw [if_neg hq] at h
      simp at h
  · exact Or.inr (Or.inr (natDigits_digits _ c h))
  · exact Or.inr (Or.inl h)
  · exact Or.inr (Or.inr (pad6_digits _ c h))

/-- The body of a saved row (everything before the final newline). -/
def saveRowBody (p : Nat × String × Int × Rat × Rat) : List Char :=
  natDigits p.1 ++ ',' :: p.2.1.data ++ ',' :: intChars p.2.2.1 ++
    ',' :: format6 p.2.2.2.1 ++ ',' :: format6 p.2.2.2.2

theorem saveRow_eq_body (p : Nat × String × Int × Rat × Rat) :
    saveRow p = saveRowBody p ++ ['\n'] := by
  simp [saveRow, saveRowBody]

theorem saveRowBody_no_newline {p : Nat × String × Int × Rat × Rat}
    (hnm : '\n' ∉ p.2.1.data) : '\n' ∉ saveRowBody p := by
  intro hmem
  rw [saveRowBody] at hmem
  simp at hmem
  rcases hmem with h | h | h | h | h
  · exact absurd (natDigits_digits _ '\n' h) (by decide)
  · exact hnm h
  · rcases intChars_mem h with h1 | h1
    · exact absurd h1 (by decide)
    · exact absurd h1 (by decide)
  · rcases format6_mem h with h1 | h1 | h1
    · exact absurd h1 (by decide)
    · exact absurd h1 (by decide)
    · exact absurd h1 (by decide)
  · rcases format6_mem h with h1 | h1 | h1
    · exact absurd h1 (by decide)
    · exact absurd h1 (by decide)
    · exact absurd h1 (by decide)

end BusRoute

namespace BusRoute

theorem linesF_congr : ∀ (f1 : Nat) (content : List Char) (f2 : Nat),
    content.length < f1 → content.length < f2 → linesF f1 content = linesF f2 content := by
  intro f1
  induction f1 with
  | zero => intro content f2 h1 _; omega
  | succ f ih =>
    intro content f2 h1 h2
    obtain ⟨g, rfl⟩ : ∃ g, f2 = g + 1 := ⟨f2 - 1, by omega⟩
    cases hc : fgets content with
    | none => simp only [linesF, hc]
    | some lr =>
      obtain ⟨happ, hlt⟩ := fgets_decompose (show fgets content = some (lr.1, lr.2) by
        rw [hc])
      simp only [linesF, hc]
      rw [ih lr.2 g (by omega) (by omega)]

theorem linesOf_nil : linesOf [] = [] := rfl

theorem linesOf_cons {content l r : List Char} (h : fgets content = some (l, r)) :
    linesOf content = l :: linesOf r := by
  obtain ⟨happ, hlt⟩ := fgets_decompose h
  have h2 : linesF (content.length + 1) content = l :: linesF content.length r := by
    rw [linesF, h]
  rw [linesOf, linesOf, h2,
    linesF_congr content.length r (r.length + 1) hlt (by omega)]

/-- A stop payload that survives the CSV round trip unchanged. -/
def savable (p : Nat × String × Int × Rat × Rat) : Prop :=
  p.2.1.data ≠ [] ∧ p.2.1.data.length ≤ 63 ∧ ',' ∉ p.2.1.data ∧ '\n' ∉ p.2.1.data ∧
  0 ≤ p.2.2.2.1 ∧ (∃ n : Nat, p.2.2.2.1 * 1000000 = (n : Rat)) ∧
  0 ≤ p.2.2.2.2 ∧ (∃ n : Nat, p.2.2.2.2 * 1000000 = (n : Rat)) ∧
  (saveRow p).length ≤ 255

theorem fgets_saveRow {p : Nat × String × Int × Rat × Rat} (hnm : '\n' ∉ p.2.1.data)
    (hlen : (saveRow p).length ≤ 255) (rest : List Char) :
    fgets (saveRow p ++ rest) = some (saveRow p, rest) := by
  have hb : (saveRowBody p).length < 255 := by
    rw [saveRow_eq_body, List.length_append] at hlen
    simp at hlen
    omega
  rw [saveRow_eq_body, List.append_assoc, List.singleton_append]
  exact fgets_line hb (saveRowBody_no_newline hnm)

theorem linesOf_rowsChars : ∀ rows : List (Nat × String × Int × Rat × Rat),
    (∀ p ∈ rows, savable p) → linesOf (rowsChars rows) = rows.map saveRow := by
  intro rows
  induction rows with
  | nil => intro _; rfl
  | cons r rs ih =>
    intro h
    obtain ⟨_, _, _, hnl, _, _, _, _, hlen⟩ := h r (List.mem_cons_self r rs)
    have hrc : rowsChars (r :: rs) = saveRow r ++ rowsChars rs := rfl
    rw [hrc, linesOf_cons (fgets_saveRow hnl hlen (rowsChars rs)),
      ih (fun p hp => h p (List.mem_cons_of_mem r hp)), List.map_cons]

theorem parseRow_saveRow_of_savable {p : Nat × String × Int × Rat × Rat}
    (h : savable p) : parseRow (saveRow p) = some (p.2.1, p.2.2.1, p.2.2.2.1, p.2.2.2.2) := by
  obtain ⟨h1, h2, h3, _, h5, ⟨nd, hnd⟩, h7, ⟨nt, hnt⟩, _⟩ := h
  obtain ⟨idn, nm, pa, d, t⟩ := p
  exact parseRow_saveRow h1 h2 h3 h5 hnd h7 hnt

theorem goodRows_rowsChars : ∀ rows : List (Nat × String × Int × Rat × Rat),
    (∀ p ∈ rows, savable p) →
    goodRows (rowsChars rows) = rows.map (fun p => (p.2.1, p.2.2.1, p.2.2.2.1, p.2.2.2.2)) := by
  intro rows h
  rw [goodRows, linesOf_rowsChars rows h, List.filterMap_map]
  induction rows with
  | nil => rfl
  | cons r rs ih =>
    rw [List.filterMap_cons, List.map_cons]
    have hp := parseRow_saveRow_of_savable (h r (List.mem_cons_self r rs))
    simp only [Function.comp_apply, hp]
    rw [ih (fun p hp' => h p (List.mem_cons_of_mem r hp'))]

end BusRoute

namespace BusRoute

/-- Master lemma for the row loop of `load_from_file`: the accepted rows —
and only they — are appended in file order at fresh consecutive addresses,
with fresh consecutive ids and names truncated to 63 characters. -/
theorem loadLoop_spec : ∀ (fuel : Nat) (content : List Char) (s : RState) (as : List Nat),
    content.length < fuel → InvWith s as →
    ∃ s', loadLoop s fuel content = some s' ∧
      InvWith s' (as ++ List.range' s.next_addr (goodRows content).length) ∧
      s'.next_id = s.next_id + (goodRows content).length ∧
      s'.next_addr = s.next_addr + (goodRows content).length ∧
      (∀ x ∈ as, dataAt s'.heap x = dataAt s.heap x) ∧
      (List.range' s.next_addr (goodRows content).length).map (dataAt s'.heap) =
        loadedData s.next_id (goodRows content) := by
  intro fuel
  induction fuel with
  | zero => intro content s as h hI; omega
  | succ f ih =>
    intro content s as h hI
    cases hc : fgets content with
    | none =>
      have hcontent : content = [] := fgets_none_iff.1 hc
      subst hcontent
      have hg : goodRows [] = [] := rfl
      refine ⟨s, ?_, ?_, ?_, ?_, ?_, ?_⟩
      · simp only [loadLoop, hc]
      · rw [hg]
        simpa using hI
      · rw [hg]; rfl
      · rw [hg]; rfl
      · intro x _; rfl
      · rw [hg]; rfl
    | some lr =>
      obtain ⟨happ, hlt⟩ := fgets_decompose (show fgets content = some (lr.1, lr.2) by rw [hc])
      have hlines : linesOf content = lr.1 :: linesOf lr.2 :=
        linesOf_cons (show fgets content = some (lr.1, lr.2) by rw [hc])
      cases hp : parseRow lr.1 with
      | none =>
        have hgr : goodRows content = goodRows lr.2 := by
          rw [goodRows, hlines, List.filterMap_cons, hp]
          rfl
        obtain ⟨s', hrun, hI', hni, hna, hfr, hdata⟩ := ih lr.2 s as (by omega) hI
        refine ⟨s', ?_, ?_, ?_, ?_, ?_, ?_⟩
        · simp only [loadLoop, hc, hp]
          exact hrun
        · rw [hgr]; exact hI'
        · rw [hgr]; exact hni
        · rw [hgr]; exact hna
        · exact hfr
        · rw [hgr]; exact hdata
      | some r =>
        have hgr : goodRows content = r :: goodRows lr.2 := by
          rw [goodRows, hlines, List.filterMap_cons, hp]
          rfl
        obtain ⟨s1, hins, hI1, hni1, hna1, hd1, hfr1⟩ :=
          insertEndNew_spec hI r.1 r.2.1 r.2.2.1 r.2.2.2
        obtain ⟨s', hrun, hI', hni, hna, hfr, hdata⟩ :=
          ih lr.2 s1 (as ++ [s.next_addr]) (by omega) hI1
        have hbound : ∀ x ∈ as, x ≠ s.next_addr := by
          intro x hx
          obtain ⟨hkN, hasN, hperm, hhead, hseg, haddr, hid⟩ := hI
          have hxk : x ∈ keys s.heap := hperm.mem_iff.2 hx
          have := haddr x hxk
          omega
        refine ⟨s', ?_, ?_, ?_, ?_, ?_, ?_⟩
        · simp only [loadLoop, hc, hp, Option.bind_eq_bind, hins, Option.some_bind]
          exact hrun
        · rw [hgr]
          simp only [List.length_cons, List.range'_succ]
          rw [hna1] at hI'
          simpa using hI'
        · rw [hgr]
          simp only [List.length_cons]
          rw [hni, hni1]
          omega
        · rw [hgr]
          simp only [List.length_cons]
          rw [hna, hna1]
          omega
        · intro x hx
          rw [hfr x (List.mem_append_left _ hx), hfr1 x (hbound x hx)]
        · rw [hgr]
          simp only [List.length_cons, List.range'_succ, List.map_cons]
          have hhd : dataAt s'.heap s.next_addr =
              some (s.next_id, String.mk (r.1.data.take 63), r.2.1, r.2.2.1, r.2.2.2) := by
            rw [hfr s.next_addr (List.mem_append_right _ (List.mem_singleton.2 rfl)), hd1]
          rw [hhd]
          have hld : loadedData s.next_id (r :: goodRows lr.2) =
              some (s.next_id, String.mk (r.1.data.take 63), r.2.1, r.2.2.1, r.2.2.2) ::
              loadedData (s.next_id + 1) (goodRows lr.2) := rfl
          rw [hld]
          rw [← hna1, ← hni1]
          exact congrArg _ hdata

end BusRoute

namespace BusRoute

theorem InvWith_empty (ni na : Nat) :
    InvWith { heap := [], head := none, next_id := ni, next_addr := na } [] := by
  refine ⟨by simp [keys], by simp, by simp [keys], rfl, ?_, ?_, ?_⟩
  · exact seg_nil _ _ _
  · intro a ha
    simp [keys] at ha
  · intro q hq
    simp at hq

/-- `load_from_file` when `fopen` fails: reports failure and leaves the
route untouched (it is NOT cleared). -/
theorem load_fopen_fail (s : RState) : load_from_file s none = some (false, s) := rfl

/-- `load_from_file` on an openable but empty file: the route is cleared
(before the header read), then failure is reported. -/
theorem load_empty_spec {s : RState} {as : List Nat} (hI : InvWith s as) :
    load_from_file s (some []) =
      some (false, { heap := [], head := none, next_id := s.next_id, next_addr := s.next_addr }) := by
  simp only [load_from_file, clear_route_spec hI, Option.bind_eq_bind, Option.some_bind]
  rfl

/-- `load_from_file` on an openable, nonempty file: the route is cleared,
the header line is discarded, every accepted row of the remaining content
is appended with a fresh id, and success is reported. -/
theorem load_some_spec {s : RState} {as : List Nat} (hI : InvWith s as)
    {content hd rest : List Char} (hget : fgets content = some (hd, rest)) :
    ∃ s', load_from_file s (some content) = some (true, s') ∧
      InvWith s' (List.range' s.next_addr (goodRows rest).length) ∧
      s'.next_id = s.next_id + (goodRows rest).length ∧
      s'.next_addr = s.next_addr + (goodRows rest).length ∧
      (List.range' s.next_addr (goodRows rest).length).map (dataAt s'.heap) =
        loadedData s.next_id (goodRows rest) := by
  have hclr := clear_route_spec hI
  have hI0 : InvWith { heap := [], head := none, next_id := s.next_id, next_addr := s.next_addr } [] :=
    InvWith_empty s.next_id s.next_addr
  obtain ⟨s', hrun, hI', hni, hna, _, hdata⟩ :=
    loadLoop_spec (rest.length + 1) rest
      { heap := [], head := none, next_id := s.next_id, next_addr := s.next_addr } [] (by omega) hI0
  refine ⟨s', ?_, by simpa using hI', by simpa using hni, by simpa using hna, by simpa using hdata⟩
  simp only [load_from_file, hclr, Option.bind_eq_bind, Option.some_bind, hget, hrun]

end BusRoute

namespace BusRoute

theorem collectData_spec {h : Heap} : ∀ {as : List Nat} {rows : List (Nat × String × Int × Rat × Rat)},
    as.map (fun a => dataAt h a) = rows.map some → collectData h as = some rows := by
  intro as
  induction as with
  | nil =>
    intro rows hmap
    cases rows with
    | nil => rfl
    | cons r rs => simp at hmap
  | cons a as ih =>
    intro rows hmap
    cases rows with
    | nil => simp at hmap
    | cons r rs =>
      simp only [List.map_cons, List.cons.injEq] at hmap
      obtain ⟨h1, h2⟩ := hmap
      simp only [collectData, h1, Option.bind_eq_bind, Option.some_bind, ih h2]

/-- `save_to_file` on an empty route: reports failure, writes nothing. -/
theorem save_empty {s : RState} (hh : s.head = none) (canOpen : Bool) :
    save_to_file s canOpen = some (false, none) := by
  rw [save_to_file, hh]

/-- `save_to_file` when the destination cannot be opened: reports failure,
writes nothing. -/
theorem save_cannot_open {s : RState} {hd : Nat} (hh : s.head = some hd) :
    save_to_file s false = some (false, none) := by
  rw [save_to_file, hh]
  rfl

/-- `save_to_file` on a nonempty route: writes the header and one row per
stop, in traversal order. -/
theorem save_spec {s : RState} {as : List Nat} {rows : List (Nat × String × Int × Rat × Rat)}
    (hI : InvWith s as) (hne : as ≠ [])
    (hrows : as.map (fun a => dataAt s.heap a) = rows.map some) :
    save_to_file s true = some (true, some (headerChars ++ rowsChars rows)) := by
  obtain ⟨a0, as', has⟩ : ∃ a0 as', as = a0 :: as' := by
    cases as with
    | nil => exact absurd rfl hne
    | cons a l => exact ⟨a, l, rfl⟩
  have hh : s.head = some a0 := by
    have := hI.2.2.2.1
    rw [this, has]
    rfl
  have htrav := travList_spec hI
  rw [save_to_file, hh]
  simp only [if_pos rfl, htrav, Option.bind_eq_bind, Option.some_bind, collectData_spec hrows]
  simp

end BusRoute

namespace BusRoute

/-! ### Concrete demonstration states for witnesses and counterexamples -/

def nmA : String := "A"
def nmB : String := "B"
def nmC : String := "C"
def nmEmpty : String := ""

/-- A one-stop route (stop "A", self-linked). -/
def st1 : RState :=
  { heap := [(0, ⟨1, nmA, 0, 0, 0, some 0, some 0⟩)],
    head := some 0, next_id := 2, next_addr := 1 }

/-- A two-stop route "A" → "B". -/
def st2 : RState :=
  { heap := [(0, ⟨1, nmA, 0, 1, 2, some 1, some 1⟩), (1, ⟨2, nmB, 0, 3, 4, some 0, some 0⟩)],
    head := some 0, next_id := 3, next_addr := 2 }

/-- The spec scenario route: A(d=1,t=2), B(3,4), C(5,6). -/
def st3 : RState :=
  { heap := [(0, ⟨1, nmA, 0, 1, 2, some 2, some 1⟩),
             (1, ⟨2, nmB, 0, 3, 4, some 0, some 2⟩),
             (2, ⟨3, nmC, 0, 5, 6, some 1, some 0⟩)],
    head := some 0, next_id := 4, next_addr := 3 }

/-- A one-stop route whose stop has an empty name. -/
def stE : RState :=
  { heap := [(0, ⟨1, nmEmpty, 0, 0, 0, some 0, some 0⟩)],
    head := some 0, next_id := 2, next_addr := 1 }

end BusRoute

namespace BusRoute

instance instDecInvWith (s : RState) (as : List Nat) : Decidable (InvWith s as) := by
  unfold InvWith cyc
  infer_instance

/-- C8: `delete_by_name` on a name with no case-insensitive match in the
route returns `false` (no deletion) and leaves the whole route state —
order, ids, names, passenger counts, edge weights, head, counters —
exactly unchanged. -/
theorem C8_delete_miss_unchanged {s : RState} {as : List Nat} (hI : InvWith s as)
    (nm : String) (hmiss : ∀ a ∈ as, nameMatches s.heap nm a = false) :
    delete_by_name s nm = some (false, s) := by
  have hfind : find_by_name s nm = some none := by
    rw [find_by_name_spec hI nm]
    have hnone : as.find? (nameMatches s.heap nm) = none := by
      rw [List.find?_eq_none]
      intro x hx
      simp [hmiss x hx]
    rw [hnone]
  exact delete_not_found hfind

theorem C8_witness : delete_by_name st1 nmB = some (false, st1) :=
  @C8_delete_miss_unchanged st1 [0] (by decide) nmB (by decide)

end BusRoute

namespace BusRoute

/-- C7: when `delete_by_name` removes the stop `tgt` (found at position
`u.length` of the traversal order): deleting the sole member empties the
route and clears `head`; deleting the head advances `head` to the deleted
stop's former successor; and the payload fields (id, name, passengers,
`dist_to_next`, `time_to_next`) of every remaining stop — in particular
the predecessor's edge weights — are left unchanged. -/
theorem C7_delete_frame {s : RState} {as u v : List Nat} {tgt : Nat} {nm : String}
    (hI : InvWith s as) (hsplit : as = u ++ tgt :: v)
    (hfind : find_by_name s nm = some (some tgt)) :
    ∃ s', delete_by_name s nm = some (true, s') ∧
      (as = [tgt] → s'.heap = [] ∧ s'.head = none) ∧
      (u = [] → v ≠ [] → optNext s.heap tgt = some (v.headD 0) ∧ s'.head = some (v.headD 0)) ∧
      (∀ x, x ≠ tgt → dataAt s'.heap x = dataAt s.heap x) := by
  obtain ⟨s', hdel, hI', hni, hna, hfr, hnone⟩ := delete_found_spec hI hsplit hfind
  refine ⟨s', hdel, ?_, ?_, hfr⟩
  · intro hsole
    have huv : u = [] ∧ v = [] := by
      rw [hsole] at hsplit
      cases u with
      | nil =>
        simp only [List.nil_append] at hsplit
        injection hsplit with _ h2
        exact ⟨rfl, h2.symm⟩
      | cons a u' =>
        rw [List.cons_append] at hsplit
        injection hsplit with _ h2
        exact absurd h2.symm (by simp)
    obtain ⟨hu0, hv0⟩ := huv
    subst hu0 hv0
    have hI'' : InvWith s' [] := by simpa using hI'
    refine ⟨InvWith_heap_nil hI'', ?_⟩
    have := hI''.2.2.2.1
    simpa using this
  · intro hu hv
    subst hu
    obtain ⟨hkN, hasN, hperm, hhead, hseg, haddr, hid⟩ := hI
    rw [hsplit] at hseg
    simp only [List.nil_append] at hseg
    rw [cyc] at hseg
    obtain ⟨-, hnt, -⟩ := (seg_cons_iff _ _ _ _ _).1 hseg
    have hnt' : optNext s.heap tgt = some (v.headD 0) := by
      rw [hnt]
      have : v.headD ((tgt :: v).headD 0) = v.headD 0 := headD_ne_nil hv _ 0
      rw [this]
    refine ⟨hnt', ?_⟩
    have hh := hI'.2.2.2.1
    simp only [List.nil_append] at hh
    rw [hh, head?_eq_headD hv]

theorem C7_witness : ∃ s', delete_by_name st2 nmA = some (true, s') ∧
    (([0, 1] : List Nat) = [0] → s'.heap = [] ∧ s'.head = none) ∧
    (([] : List Nat) = [] → ([1] : List Nat) ≠ [] →
      optNext st2.heap 0 = some (([1] : List Nat).headD 0) ∧
      s'.head = some (([1] : List Nat).headD 0)) ∧
    (∀ x, x ≠ 0 → dataAt s'.heap x = dataAt st2.heap x) :=
  @C7_delete_frame st2 [0, 1] [] [1] 0 nmA (by decide) rfl (by decide)

end BusRoute

namespace BusRoute

/-- C2 (amended): `load_from_file` clears the current route only after the
file has been opened: when `fopen` fails the previous route is left fully
intact (NOT discarded); once the file opens, the route is cleared before
the outcome of reading is known — an empty file still reports failure with
the route already emptied, and on a readable file the resulting route
contains no stop of the previous route. -/
theorem C2_load_clear_timing :
    (∀ s : RState, load_from_file s none = some (false, s)) ∧
    (∀ (s : RState) (as : List Nat), InvWith s as →
      load_from_file s (some []) =
        some (false, { heap := [], head := none, next_id := s.next_id, next_addr := s.next_addr })) ∧
    (∀ (s : RState) (as : List Nat) (content hd rest : List Char), InvWith s as →
      fgets content = some (hd, rest) →
      ∃ s', load_from_file s (some content) = some (true, s') ∧
        ∀ x ∈ as, List.lookup x s'.heap = none) := by
  refine ⟨fun s => load_fopen_fail s, fun s as hI => load_empty_spec hI, ?_⟩
  intro s as content hd rest hI hget
  obtain ⟨s', hld, hI', hni, hna, hdata⟩ := load_some_spec hI hget
  refine ⟨s', hld, ?_⟩
  intro x hx
  have hxlt : x < s.next_addr := by
    obtain ⟨hkN, hasN, hperm, hhead, hseg, haddr, hid⟩ := hI
    exact haddr x (hperm.mem_iff.2 hx)
  rw [lookup_eq_none_iff]
  intro hxk
  have hxin : x ∈ List.range' s.next_addr (goodRows rest).length :=
    (InvWith_mem_keys hI' x).1 hxk
  have := List.mem_range'_1.1 hxin
  omega

theorem C2_witness :
    (load_from_file st1 none = some (false, st1)) ∧
    (load_from_file st1 (some []) =
      some (false, { heap := [], head := none, next_id := st1.next_id, next_addr := st1.next_addr })) ∧
    ∃ s', load_from_file st1 (some ['h', '\n']) = some (true, s') ∧
      ∀ x ∈ ([0] : List Nat), List.lookup x s'.heap = none :=
  ⟨C2_load_clear_timing.1 st1,
   C2_load_clear_timing.2.1 st1 [0] (by decide),
   C2_load_clear_timing.2.2 st1 [0] ['h', '\n'] ['h', '\n'] [] (by decide) (by decide)⟩

/-- C2 (counterexample to the original claim): when the file cannot be
opened, the load returns failure with the route NOT cleared — a nonempty
route survives a failed load, contradicting "any failed load still leaves
the previous Route contents destructively discarded". -/
theorem C2_counterexample :
    load_from_file st1 none = some (false, st1) ∧ st1.head = some 0 ∧ st1.heap ≠ [] := by
  refine ⟨rfl, rfl, by decide⟩

end BusRoute

namespace BusRoute

/-- C9: during a load, each data line is parsed with
`sscanf("%*d,%63[^,],%d,%lf,%lf")`; a row is kept exactly when all four of
(name, passengers, distance, time) convert (`goodRows` is the
`filterMap` of `parseRow` over the lines, so a malformed row is skipped
without aborting the loop); the kept rows are appended in file order via
`insert_end`, and the id read from the file is ignored — each inserted
stop receives the fresh consecutive ids `next_id, next_id+1, …`
(`loadedData`). -/
theorem C9_load_row_handling {s : RState} {as : List Nat} {content hd rest : List Char}
    (hI : InvWith s as) (hget : fgets content = some (hd, rest)) :
    ∃ s', load_from_file s (some content) = some (true, s') ∧
      InvWith s' (List.range' s.next_addr ((linesOf rest).filterMap parseRow).length) ∧
      (List.range' s.next_addr ((linesOf rest).filterMap parseRow).length).map (dataAt s'.heap) =
        loadedData s.next_id ((linesOf rest).filterMap parseRow) := by
  obtain ⟨s', hld, hI', hni, hna, hdata⟩ := load_some_spec hI hget
  exact ⟨s', hld, hI', hdata⟩

theorem C9_witness :
    ∃ s', load_from_file initState
        (some (('h' :: '\n' :: ("2,X,3,4,5\n").data) ++ ("bad\n").data ++ ("7,Y,8,9,1\n").data)) =
        some (true, s') ∧
      InvWith s' (List.range' initState.next_addr
        ((linesOf (("2,X,3,4,5\n").data ++ ("bad\n").data ++ ("7,Y,8,9,1\n").data)).filterMap parseRow).length) ∧
      (List.range' initState.next_addr
        ((linesOf (("2,X,3,4,5\n").data ++ ("bad\n").data ++ ("7,Y,8,9,1\n").data)).filterMap parseRow).length).map
          (dataAt s'.heap) =
        loadedData initState.next_id
          ((linesOf (("2,X,3,4,5\n").data ++ ("bad\n").data ++ ("7,Y,8,9,1\n").data)).filterMap parseRow) :=
  @C9_load_row_handling initState []
    (('h' :: '\n' :: ("2,X,3,4,5\n").data) ++ ("bad\n").data ++ ("7,Y,8,9,1\n").data)
    ['h', '\n'] (("2,X,3,4,5\n").data ++ ("bad\n").data ++ ("7,Y,8,9,1\n").data)
    (by decide) (by decide)

/-- C10: if the file opens and a first (header) line can be read, the load
reports success no matter how many data rows parse; with no accepted data
rows (header-only file, or all rows malformed) it succeeds with an empty
route. -/
theorem C10_load_reports_success {s : RState} {as : List Nat} {content hd rest : List Char}
    (hI : InvWith s as) (hget : fgets content = some (hd, rest)) :
    ∃ s', load_from_file s (some content) = some (true, s') ∧
      (goodRows rest = [] → s'.heap = [] ∧ s'.head = none) := by
  obtain ⟨s', hld, hI', hni, hna, hdata⟩ := load_some_spec hI hget
  refine ⟨s', hld, ?_⟩
  intro hg
  rw [hg] at hI'
  simp only [List.length_nil, List.range'_zero] at hI'
  refine ⟨InvWith_heap_nil hI', ?_⟩
  have := hI'.2.2.2.1
  simpa using this

theorem C10_witness :
    ∃ s', load_from_file st1 (some ['h', '\n', 'z', '\n']) = some (true, s') ∧
      (goodRows ['z', '\n'] = [] → s'.heap = [] ∧ s'.head = none) :=
  @C10_load_reports_success st1 [0] ['h', '\n', 'z', '\n'] ['h', '\n'] ['z', '\n']
    (by decide) (by decide)

end BusRoute

namespace BusRoute

def nmD : String := "D"

/-- C6: `insert_at_position` with `pos <= 1` or on an empty route makes the
freshly created stop the new head, the old order following it (so the old
head, if any, becomes its successor and the new stop takes over the head's
former links); a position strictly beyond the route length splices the new
stop immediately before the head, i.e. at the end of traversal order,
leaving the head unchanged. -/
theorem C6_insert_at_position :
    (∀ (s : RState) (as : List Nat) (nm : String) (pa : Int) (d t : Rat) (pos : Int),
      InvWith s as → (as = [] ∨ pos ≤ 1) →
      ∃ s', insertAtPositionNew s nm pa d t pos = some s' ∧
        InvWith s' (s.next_addr :: as) ∧ s'.head = some s.next_addr) ∧
    (∀ (s : RState) (as : List Nat) (nm : String) (pa : Int) (d t : Rat) (pos : Int),
      InvWith s as → as ≠ [] → (as.length : Int) < pos →
      ∃ s', insertAtPositionNew s nm pa d t pos = some s' ∧
        InvWith s' (as ++ [s.next_addr]) ∧ s'.head = s.head) := by
  constructor
  · intro s as nm pa d t pos hI hpos
    obtain ⟨s', h1, h2, h3, -⟩ := insertAtPositionNew_head_spec hI nm pa d t pos hpos
    exact ⟨s', h1, h2, h3⟩
  · intro s as nm pa d t pos hI hne hpos
    have hlen1 : 1 ≤ as.length := by
      cases as with
      | nil => exact absurd rfl hne
      | cons a l => simp
    have hpos2 : 2 ≤ pos := by omega
    obtain ⟨s', h1, h2, h3, -⟩ := insertAtPositionNew_walk_spec hI nm pa d t pos hne hpos2
    have hj : min ((pos - 1).toNat - 1) (as.length - 1) = as.length - 1 := by omega
    rw [hj] at h2
    have hdrop : as.drop (as.length - 1 + 1) = [] :=
      List.drop_eq_nil_of_le (by omega)
    rw [hdrop] at h2
    refine ⟨s', h1, ?_, h3⟩
    have hsplit := list_split_at (show as.length - 1 < as.length by omega)
    rw [hdrop] at hsplit
    have hfold : as.take (as.length - 1) ++
        as.getD (as.length - 1) 0 :: s.next_addr :: ([] : List Nat) = as ++ [s.next_addr] := by
      conv_rhs => rw [hsplit]
      simp
    rw [← hfold]
    exact h2

theorem C6_witness :
    (∃ s', insertAtPositionNew st3 nmD 0 7 8 1 = some s' ∧
      InvWith s' (3 :: [0, 1, 2]) ∧ s'.head = some 3) ∧
    (∃ s', insertAtPositionNew st3 nmD 0 7 8 9 = some s' ∧
      InvWith s' ([0, 1, 2] ++ [3]) ∧ s'.head = st3.head) :=
  ⟨C6_insert_at_position.1 st3 [0, 1, 2] nmD 0 7 8 1 (by decide) (Or.inr (by norm_num)),
   C6_insert_at_position.2 st3 [0, 1, 2] nmD 0 7 8 9 (by decide) (by decide) (by norm_num)⟩

end BusRoute

namespace BusRoute

theorem nameMatches_of_dataAt_eq {h h' : Heap} {x : Nat} {nm : String}
    (he : dataAt h' x = dataAt h x) : nameMatches h' nm x = nameMatches h nm x := by
  cases hl : List.lookup x h with
  | none =>
    have hl' : List.lookup x h' = none := by
      rw [dataAt, dataAt, hl] at he
      simp only [Option.map_none'] at he
      exact Option.map_eq_none'.1 he
    rw [nameMatches, nameMatches, hl, hl']
  | some nd =>
    have hsome : ∃ nd', List.lookup x h' = some nd' ∧ nd'.data = nd.data := by
      rw [dataAt, dataAt, hl] at he
      cases hl' : List.lookup x h' with
      | none => rw [hl'] at he; simp at he
      | some nd' =>
        rw [hl'] at he
        simp only [Option.map_some', Option.some.injEq] at he
        exact ⟨nd', rfl, he⟩
    obtain ⟨nd', hl', hdd⟩ := hsome
    have hname : nd'.name = nd.name := by
      have := congrArg (fun p => p.2.1) hdd
      simpa [Node.data] using this
    simp only [nameMatches, hl, hl', hname]

theorem find?_append_of_none {p : Nat → Bool} {l₁ l₂ : List Nat}
    (h : l₁.find? p = none) : (l₁ ++ l₂).find? p = l₂.find? p := by
  induction l₁ with
  | nil => rfl
  | cons a l ih =>
    rw [List.find?_cons] at h
    rcases hpa : p a with _ | _
    · rw [hpa] at h
      simp only [cond_false] at h
      rw [List.cons_append, List.find?_cons, hpa]
      simp only [cond_false]
      exact ih h
    · rw [hpa] at h
      simp at h

/-- C4 (amended): if the new name fits in the 63-character buffer and no
existing stop already matches it case-insensitively, then `insert_end` of
a freshly created stop followed by `find_by_name` on that name succeeds
and returns precisely the new stop, carrying the freshly assigned id —
while every previously allocated stop carries a strictly smaller id. -/
theorem C4_insert_then_find {s : RState} {as : List Nat} (hI : InvWith s as)
    {nm : String} (h63 : nm.data.length ≤ 63)
    (hnomatch : ∀ a ∈ as, nameMatches s.heap nm a = false)
    (pa : Int) (d t : Rat) :
    ∃ s', insertEndNew s nm pa d t = some s' ∧
      find_by_name s' nm = some (some s.next_addr) ∧
      dataAt s'.heap s.next_addr = some (s.next_id, nm, pa, d, t) ∧
      (∀ q ∈ s.heap, q.2.id < s.next_id) := by
  obtain ⟨s', hins, hI', hni, hna, hd, hfr⟩ := insertEndNew_spec hI nm pa d t
  have htrunc : String.mk (nm.data.take 63) = nm := by
    rw [List.take_of_length_le h63]
  have hd' : dataAt s'.heap s.next_addr = some (s.next_id, nm, pa, d, t) := by
    rw [hd, htrunc]
  refine ⟨s', hins, ?_, hd', hI.2.2.2.2.2.2⟩
  rw [find_by_name_spec hI' nm]
  have hmatch_new : nameMatches s'.heap nm s.next_addr = true := by
    have hd2 := hd'
    rw [dataAt] at hd2
    cases hl : List.lookup s.next_addr s'.heap with
    | none => rw [hl] at hd2; simp at hd2
    | some nd =>
      rw [hl] at hd2
      simp only [Option.map_some', Option.some.injEq] at hd2
      have hname : nd.name = nm := by
        have := congrArg (fun p => p.2.1) hd2
        simpa [Node.data] using this
      simp only [nameMatches, hl, hname]
      simp [eqNoCase]
  have hmiss' : as.find? (nameMatches s'.heap nm) = none := by
    rw [List.find?_eq_none]
    intro a ha
    have hane : a ≠ s.next_addr := by
      intro heq
      obtain ⟨hkN, hasN, hperm, hhead, hseg, haddr, hid⟩ := hI
      have := haddr a (hperm.mem_iff.2 ha)
      omega
    rw [nameMatches_of_dataAt_eq (hfr a hane)]
    simp [hnomatch a ha]
  rw [find?_append_of_none hmiss', List.find?_cons_of_pos _ hmatch_new]

theorem C4_witness :
    ∃ s', insertEndNew st1 nmB 0 0 0 = some s' ∧
      find_by_name s' nmB = some (some st1.next_addr) ∧
      dataAt s'.heap st1.next_addr = some (st1.next_id, nmB, 0, 0, 0) ∧
      (∀ q ∈ st1.heap, q.2.id < st1.next_id) :=
  @C4_insert_then_find st1 [0] (by decide) nmB (by decide) (by decide) 0 0 0

/-- C4 (counterexample to the original claim): inserting a stop whose name
already occurs in the route and searching for that name returns the OLD
stop (first match in traversal order), whose id 1 is not the freshly
assigned id 2 — `find_by_name` does not return the new stop. -/
theorem C4_counterexample :
    (insertEndNew st1 nmA 0 0 0).bind (fun s' => find_by_name s' nmA) = some (some 0) ∧
    (insertEndNew st1 nmA 0 0 0).bind (fun s' => dataAt s'.heap 0) = some (1, nmA, 0, 0, 0) ∧
    st1.next_id = 2 := by
  decide

end BusRoute

namespace BusRoute

/-- C1: the cyclic-closure invariant. The initial state satisfies the
invariant (`Inv` = some traversal order lists every stop exactly once,
consecutive stops are doubly linked, and the cycle closes); in any
invariant state, advancing by `next` exactly N times (N = stop count) from
ANY stop returns to it; and every route operation — `insert_end`,
`insert_after` (with a located or absent target), `insert_at_position`,
`delete_by_name`, `clear_route` and `load_from_file` — succeeds and
preserves the invariant. -/
theorem C1_cyclic_closure :
    Inv initState ∧
    (∀ (s : RState) (as : List Nat), InvWith s as → ∀ x ∈ as,
      stepN s.heap as.length x = some x) ∧
    (∀ (s : RState) (nm : String) (pa : Int) (d t : Rat), Inv s →
      ∃ s', insertEndNew s nm pa d t = some s' ∧ Inv s') ∧
    (∀ (s : RState) (as : List Nat) (exO : Option Nat) (nm : String) (pa : Int) (d t : Rat),
      InvWith s as → (∀ e, exO = some e → e ∈ as) →
      ∃ s', insertAfterNew s exO nm pa d t = some s' ∧ Inv s') ∧
    (∀ (s : RState) (nm : String) (pa : Int) (d t : Rat) (pos : Int), Inv s →
      ∃ s', insertAtPositionNew s nm pa d t pos = some s' ∧ Inv s') ∧
    (∀ (s : RState) (nm : String), Inv s →
      ∃ b s', delete_by_name s nm = some (b, s') ∧ Inv s') ∧
    (∀ s : RState, Inv s → ∃ s', clear_route s = some s' ∧ Inv s') ∧
    (∀ (s : RState) (file : Option (List Char)), Inv s →
      ∃ b s', load_from_file s file = some (b, s') ∧ Inv s') := by
  refine ⟨⟨[], InvWith_empty 1 0⟩, ?_, ?_, ?_, ?_, ?_, ?_, ?_⟩
  · -- N-step closure from any stop
    intro s as hI x hx
    obtain ⟨u, v, hsplit⟩ := List.append_of_mem hx
    obtain ⟨hkN, hasN, hperm, hhead, hseg, haddr, hid⟩ := hI
    rw [hsplit] at hseg
    have hrot : cyc s.heap (x :: (v ++ u)) := by
      have h1 := (cyc_rotate s.heap u (x :: v)).1 hseg
      simpa using h1
    have hlen : as.length = (x :: (v ++ u)).length := by
      rw [hsplit]
      simp only [List.length_append, List.length_cons]
      omega
    have hnx : nexts s.heap (x :: (v ++ u)) x := by
      rw [cyc] at hrot
      have := nexts_of_seg hrot
      simpa using this
    have := stepN_of_nexts s.heap x (x :: (v ++ u)) (by simp) hnx
    rw [hlen]
    simpa using this
  · -- insertEnd preserves
    intro s nm pa d t hs
    obtain ⟨as, hI⟩ := hs
    obtain ⟨s', h1, hI', -⟩ := insertEndNew_spec hI nm pa d t
    exact ⟨s', h1, ⟨_, hI'⟩⟩
  · -- insertAfter preserves
    intro s as exO nm pa d t hI hex
    cases exO with
    | none =>
      have heq : insertAfterNew s none nm pa d t = insertEndNew s nm pa d t := rfl
      obtain ⟨s', h1, hI', -⟩ := insertEndNew_spec hI nm pa d t
      exact ⟨s', heq ▸ h1, ⟨_, hI'⟩⟩
    | some e =>
      obtain ⟨u, v, hsplit⟩ := List.append_of_mem (hex e rfl)
      obtain ⟨s', h1, hI', -⟩ := insertAfterNew_spec hI hsplit nm pa d t
      exact ⟨s', h1, ⟨_, hI'⟩⟩
  · -- insertAtPosition preserves
    intro s nm pa d t pos hs
    obtain ⟨as, hI⟩ := hs
    by_cases hpos : as = [] ∨ pos ≤ 1
    · obtain ⟨s', h1, hI', -⟩ := insertAtPositionNew_head_spec hI nm pa d t pos hpos
      exact ⟨s', h1, ⟨_, hI'⟩⟩
    · push_neg at hpos
      obtain ⟨hne, hgt⟩ := hpos
      obtain ⟨s', h1, hI', -⟩ :=
        insertAtPositionNew_walk_spec hI nm pa d t pos hne (by omega)
      exact ⟨s', h1, ⟨_, hI'⟩⟩
  · -- delete preserves
    intro s nm hs
    obtain ⟨as, hI⟩ := hs
    cases hf : as.find? (nameMatches s.heap nm) with
    | none =>
      have hfind : find_by_name s nm = some none := by
        rw [find_by_name_spec hI nm, hf]
      exact ⟨false, s, delete_not_found hfind, ⟨as, hI⟩⟩
    | some tgt =>
      have htgt : tgt ∈ as := List.mem_of_find?_eq_some hf
      obtain ⟨u, v, hsplit⟩ := List.append_of_mem htgt
      have hfind : find_by_name s nm = some (some tgt) := by
        rw [find_by_name_spec hI nm, hf]
      obtain ⟨s', h1, hI', -⟩ := delete_found_spec hI hsplit hfind
      exact ⟨true, s', h1, ⟨_, hI'⟩⟩
  · -- clear preserves
    intro s hs
    obtain ⟨as, hI⟩ := hs
    exact ⟨_, clear_route_spec hI, ⟨[], InvWith_empty _ _⟩⟩
  · -- load preserves
    intro s file hs
    obtain ⟨as, hI⟩ := hs
    cases file with
    | none => exact ⟨false, s, load_fopen_fail s, ⟨as, hI⟩⟩
    | some content =>
      cases content with
      | nil => exact ⟨false, _, load_empty_spec hI, ⟨[], InvWith_empty _ _⟩⟩
      | cons c cs =>
        obtain ⟨s', h1, hI', -⟩ := load_some_spec hI
          (show fgets (c :: cs) = some ((fgetsSplit 255 (c :: cs)).1, (fgetsSplit 255 (c :: cs)).2)
            from rfl)
        exact ⟨true, s', h1, ⟨_, hI'⟩⟩

theorem C1_witness :
    (∀ x ∈ ([0, 1, 2] : List Nat), stepN st3.heap ([0, 1, 2] : List Nat).length x = some x) ∧
    (∃ s', insertEndNew st3 nmD 0 0 0 = some s' ∧ Inv s') ∧
    (∃ b s', delete_by_name st3 nmB = some (b, s') ∧ Inv s') :=
  ⟨C1_cyclic_closure.2.1 st3 [0, 1, 2] (by decide),
   C1_cyclic_closure.2.2.1 st3 nmD 0 0 0 ⟨[0, 1, 2], by decide⟩,
   C1_cyclic_closure.2.2.2.2.2.1 st3 nmB ⟨[0, 1, 2], by decide⟩⟩

end BusRoute

namespace BusRoute

/-- C3: in a route of size ≥ 2, for two names resolving to distinct stops
`a` and `b`, the forward walk `a → b` plus the forward walk `b → a`
traverses each edge of the directed cycle exactly once, so
`distance_between(A,B) + distance_between(B,A) = total_distance_time()`
componentwise in exact rational arithmetic. -/
theorem C3_distance_round_sum {s : RState} {as : List Nat} {na nb : String} {a b : Nat}
    (hI : InvWith s as) (hlen2 : 2 ≤ as.length)
    (hfa : find_by_name s na = some (some a))
    (hfb : find_by_name s nb = some (some b))
    (hab : a ≠ b) :
    ∃ dAB tAB dBA tBA,
      distance_between s na nb = some (true, dAB, tAB) ∧
      distance_between s nb na = some (true, dBA, tBA) ∧
      total_distance_time s = some (dAB + dBA, tAB + tBA) := by
  have htot := total_distance_time_spec hI
  have hfa' : as.find? (nameMatches s.heap na) = some a := by
    have h0 := (find_by_name_spec hI na).symm.trans hfa
    exact Option.some.inj h0
  have hfb' : as.find? (nameMatches s.heap nb) = some b := by
    have h0 := (find_by_name_spec hI nb).symm.trans hfb
    exact Option.some.inj h0
  have ha : a ∈ as := List.mem_of_find?_eq_some hfa'
  have hb : b ∈ as := List.mem_of_find?_eq_some hfb'
  obtain ⟨hkN, hasN, hperm, hhead, hseg, haddr, hid⟩ := hI
  obtain ⟨u, v, hsplit⟩ := List.append_of_mem ha
  have hpermrot : as.Perm (a :: (v ++ u)) := by
    rw [hsplit]
    exact List.perm_middle.trans ((List.perm_append_comm).cons a)
  have hNrot : (a :: (v ++ u)).Nodup := hpermrot.nodup_iff.1 hasN
  have hrot : cyc s.heap (a :: (v ++ u)) := by
    rw [hsplit] at hseg
    have h1 := (cyc_rotate s.heap u (a :: v)).1 hseg
    simpa using h1
  have hbw : b ∈ v ++ u := by
    have h1 : b ∈ a :: (v ++ u) := hpermrot.mem_iff.1 hb
    rcases List.mem_cons.1 h1 with h2 | h2
    · exact absurd h2.symm hab
    · exact h2
  obtain ⟨w1, w2, hw⟩ := List.append_of_mem hbw
  have hasr : a :: (v ++ u) = (a :: w1) ++ (b :: w2) := by
    rw [hw]
    rfl
  have hnx : nexts s.heap (a :: (v ++ u)) a := by
    rw [cyc] at hrot
    have := nexts_of_seg hrot
    simpa using this
  rw [hasr] at hnx hNrot
  rw [nexts_append] at hnx
  obtain ⟨hn1, hn2⟩ := hnx
  have hn1' : nexts s.heap (a :: w1) b := by
    simpa using hn1
  rw [List.nodup_append] at hNrot
  obtain ⟨d1, d2, disj⟩ := hNrot
  have hheap : s.heap.length = as.length := heap_length_eq hperm
  have hlen' : as.length = (a :: w1).length + (b :: w2).length := by
    have := hpermrot.length_eq
    rw [hasr] at this
    rw [this, List.length_append]
  have hdb1 := dbLoop_spec s.heap a b (a :: w1) s.heap.length (0, 0) (by simp) hn1'
    (fun hbx => disj hbx (List.mem_cons_self b w2))
    (by
      intro x hx
      simp only [List.tail_cons] at hx
      intro hxa
      exact (List.nodup_cons.1 d1).1 (hxa ▸ hx))
    (by rw [hheap]; omega)
  have hdb2 := dbLoop_spec s.heap b a (b :: w2) s.heap.length (0, 0) (by simp) hn2
    (fun hax => disj (List.mem_cons_self a w1) hax)
    (by
      intro x hx
      simp only [List.tail_cons] at hx
      intro hxb
      exact (List.nodup_cons.1 d2).1 (hxb ▸ hx))
    (by rw [hheap]; omega)
  simp only [List.headD_cons, zero_add] at hdb1 hdb2
  obtain ⟨a0, rest, ha0⟩ : ∃ a0 rest, as = a0 :: rest := by
    cases as with
    | nil => simp at hlen2
    | cons x l => exact ⟨x, l, rfl⟩
  have hh : s.head = some a0 := by
    rw [hhead, ha0]
    rfl
  have hdab : distance_between s na nb =
      some (true, ((a :: w1).map fun x => (edgeD s.heap x).1).sum,
        ((a :: w1).map fun x => (edgeD s.heap x).2).sum) := by
    rw [distance_between, hh]
    simp only [hfa, hfb, Option.bind_eq_bind, Option.some_bind, if_neg hab, hdb1]
  have hdba : distance_between s nb na =
      some (true, ((b :: w2).map fun x => (edgeD s.heap x).1).sum,
        ((b :: w2).map fun x => (edgeD s.heap x).2).sum) := by
    rw [distance_between, hh]
    simp only [hfa, hfb, Option.bind_eq_bind, Option.some_bind,
      if_neg (fun hx : b = a => hab hx.symm), hdb2]
  refine ⟨_, _, _, _, hdab, hdba, ?_⟩
  rw [htot]
  have hsum1 : (as.map fun x => (edgeD s.heap x).1).sum =
      ((a :: w1).map fun x => (edgeD s.heap x).1).sum +
      ((b :: w2).map fun x => (edgeD s.heap x).1).sum := by
    rw [(hpermrot.map fun x => (edgeD s.heap x).1).sum_eq, hasr, List.map_append,
      List.sum_append]
  have hsum2 : (as.map fun x => (edgeD s.heap x).2).sum =
      ((a :: w1).map fun x => (edgeD s.heap x).2).sum +
      ((b :: w2).map fun x => (edgeD s.heap x).2).sum := by
    rw [(hpermrot.map fun x => (edgeD s.heap x).2).sum_eq, hasr, List.map_append,
      List.sum_append]
  rw [hsum1, hsum2]

theorem C3_witness :
    ∃ dAB tAB dBA tBA,
      distance_between st3 nmA nmC = some (true, dAB, tAB) ∧
      distance_between st3 nmC nmA = some (true, dBA, tBA) ∧
      total_distance_time st3 = some (dAB + dBA, tAB + tBA) :=
  @C3_distance_round_sum st3 [0, 1, 2] nmA nmC 0 2 (by decide) (by norm_num)
    (by decide) (by decide) (by decide)

end BusRoute

namespace BusRoute

theorem loadedData_strip : ∀ (nid : Nat) (rows2 : List (String × Int × Rat × Rat)),
    (∀ r ∈ rows2, r.1.data.length ≤ 63) →
    (loadedData nid rows2).map (Option.map Prod.snd) = rows2.map some := by
  intro nid rows2
  induction rows2 generalizing nid with
  | nil => intro _; rfl
  | cons r rs ih =>
    intro h
    have h63 := h r (List.mem_cons_self r rs)
    have htr : String.mk (r.1.data.take 63) = r.1 := by
      rw [List.take_of_length_le h63]
    simp only [loadedData, List.map_cons, Option.map_some', htr]
    rw [ih (nid + 1) (fun r' hr' => h r' (List.mem_cons_of_mem r hr'))]

/-- C5 (amended): for a nonempty route whose stops all have a nonempty
name of at most 63 characters containing neither `,` nor a newline, and
whose edge weights are nonnegative exact multiples of 10⁻⁶ printed on rows
of at most 255 characters, saving and then loading reproduces the same
sequence of (name, passengers, dist_to_next, time_to_next) tuples in the
same order (identities may differ). -/
theorem C5_round_trip {s : RState} {as : List Nat}
    {rows : List (Nat × String × Int × Rat × Rat)}
    (hI : InvWith s as) (hne : as ≠ [])
    (hrows : as.map (fun a => dataAt s.heap a) = rows.map some)
    (hsav : ∀ p ∈ rows, savable p)
    {s2 : RState} {bs : List Nat} (hI2 : InvWith s2 bs) :
    ∃ content s' as',
      save_to_file s true = some (true, some content) ∧
      load_from_file s2 (some content) = some (true, s') ∧
      travList s' = some as' ∧
      as'.map (fun x => (dataAt s'.heap x).map Prod.snd) =
        rows.map (fun p => some p.2) := by
  have hsave := save_spec hI hne hrows
  have hhdr : headerChars = ("id,name,passengers,dist_to_next,time_to_next").data ++ ['\n'] := by
    decide
  have hget : fgets (headerChars ++ rowsChars rows) = some (headerChars, rowsChars rows) := by
    rw [hhdr, List.append_assoc, List.singleton_append]
    exact fgets_line (by decide) (by decide)
  obtain ⟨s', hld, hI', hni, hna, hdata⟩ := load_some_spec hI2 hget
  refine ⟨headerChars ++ rowsChars rows, s', _, hsave, hld, travList_spec hI', ?_⟩
  have hgood : goodRows (rowsChars rows) =
      rows.map (fun p => (p.2.1, p.2.2.1, p.2.2.2.1, p.2.2.2.2)) :=
    goodRows_rowsChars rows hsav
  have hgood' : goodRows (rowsChars rows) = rows.map Prod.snd := hgood
  rw [hgood'] at hdata
  rw [hgood']
  have h63s : ∀ r ∈ rows.map Prod.snd, r.1.data.length ≤ 63 := by
    intro r hr
    obtain ⟨p, hp, hpr⟩ := List.mem_map.1 hr
    have := (hsav p hp).2.1
    rw [← hpr]
    exact this
  calc (List.range' s2.next_addr (rows.map Prod.snd).length).map
        (fun x => (dataAt s'.heap x).map Prod.snd)
      = ((List.range' s2.next_addr (rows.map Prod.snd).length).map
          (dataAt s'.heap)).map (Option.map Prod.snd) := by
        rw [List.map_map]
        rfl
    _ = (loadedData s2.next_id (rows.map Prod.snd)).map (Option.map Prod.snd) := by
        rw [hdata]
    _ = (rows.map Prod.snd).map some := loadedData_strip s2.next_id (rows.map Prod.snd) h63s
    _ = rows.map (fun p => some p.2) := by
        rw [List.map_map]
        rfl

end BusRoute

namespace BusRoute

theorem natDigits_one : natDigits 1 = ['1'] := by
  rw [natDigits, if_neg (by norm_num), natDigitsAux_pos (by norm_num), natDigitsAux_zero]

theorem format6_zero : format6 (0 : Rat) = ['0', '.', '0', '0', '0', '0', '0', '0'] := by
  have h1 : (round (|(0 : Rat)| * 1000000) : Int).toNat = 0 := by
    simp
  simp only [format6, h1]
  rw [if_neg (by norm_num)]
  decide

theorem saveRow_A : saveRow (1, nmA, 0, 0, 0) = ("1,A,0,0.000000,0.000000\n").data := by
  simp only [saveRow]
  rw [natDigits_one, format6_zero]
  decide

theorem saveRow_E : saveRow (1, nmEmpty, 0, 0, 0) = ("1,,0,0.000000,0.000000\n").data := by
  simp only [saveRow]
  rw [natDigits_one, format6_zero]
  decide

theorem C5_witness :
    ∃ content s' as',
      save_to_file st1 true = some (true, some content) ∧
      load_from_file initState (some content) = some (true, s') ∧
      travList s' = some as' ∧
      as'.map (fun x => (dataAt s'.heap x).map Prod.snd) =
        ([(1, nmA, 0, 0, 0)] : List (Nat × String × Int × Rat × Rat)).map (fun p => some p.2) :=
  @C5_round_trip st1 [0] [(1, nmA, 0, 0, 0)] (by decide) (by decide) (by decide)
    (by
      intro p hp
      rw [List.mem_singleton] at hp
      subst hp
      refine ⟨by decide, by decide, by decide, by decide, by norm_num, ⟨0, by norm_num⟩,
        by norm_num, ⟨0, by norm_num⟩, ?_⟩
      rw [saveRow_A]
      decide)
    initState [] (by decide)

/-- C5 (counterexample to the original claim): a route whose single stop
has the empty name (which contains no field delimiter, so the original
claim applies) saves fine, but its row `1,,0,0.000000,0.000000` fails the
`%63[^,]` conversion on reload, so the loaded route is EMPTY — the
sequence of (name, passengers, dist, time) tuples is not preserved. -/
theorem C5_counterexample :
    ∃ content s',
      save_to_file stE true = some (true, some content) ∧
      load_from_file initState (some content) = some (true, s') ∧
      dataAt stE.heap 0 = some (1, nmEmpty, 0, 0, 0) ∧
      travList stE = some [0] ∧
      s'.heap = [] ∧ s'.head = none := by
  refine ⟨headerChars ++ ("1,,0,0.000000,0.000000\n").data, ⟨[], none, 1, 0⟩,
    ?_, ?_, by decide, by decide, rfl, rfl⟩
  · have hsave : save_to_file stE true =
        some (true, some (headerChars ++ rowsChars [(1, nmEmpty, 0, 0, 0)])) :=
      @save_spec stE [0] [(1, nmEmpty, 0, 0, 0)] (by decide) (by decide) (by decide)
    rw [hsave]
    have hrc : rowsChars [(1, nmEmpty, 0, 0, 0)] = ("1,,0,0.000000,0.000000\n").data := by
      show saveRow (1, nmEmpty, 0, 0, 0) ++ [] = _
      rw [List.append_nil, saveRow_E]
    rw [hrc]
  · decide

end BusRoute
